import Mathlib

/-!
# binsearch_var.c: half-open binary search

A shallow embedding of `binsea` from `src/binsearch_var.c` and the properties
of it that the specification states.

Modelling conventions.

* A C `int` is a mathematical integer; the two operations of `binsea` that
  can leave the 32-bit range, `hi-lo` and `hi+lo`, are wrapped explicitly
  (two's complement, modulo `2^32`) by `wrap32`.
* `/` on `int` truncates toward zero: `Int.tdiv`.
* The array `a` is a `List Int`. The source has no bounds check, and a read
  `a[i]` with `i` negative or past the end is embedded in two ways. `binsea`
  (with `binseaCall`, `binseaRun`, `binseaReads`) stops the run with
  `Err.outOfBounds` at such a read; it is used where every read is shown to be
  inside the array. `binseaFlat` (with `binseaCallFlat`, `ReachFlat`) goes on, as
  the compiled program does, with the word `stray i` that a flat memory
  `memOf a stray` holds there; it is used where reads may leave the array. The
  two agree on every run that stays inside the array (`binseaFlat_eq_binsea`).
* The recursion is driven by a fuel argument that bounds the number of nested
  calls (`Err.outOfFuel`, or `none` for `binseaFlat`, when it runs out), since
  `binsea` does not terminate on every input.
-/

namespace BinsearchVar

/-! ## Machine integers -/

/-- Largest value of a 32-bit C `int`. -/
def INT_MAX : Int := 2147483647

/-- Smallest value of a 32-bit C `int`. -/
def INT_MIN : Int := -2147483648

/-- Two's-complement wrap-around of an integer into the 32-bit signed range. -/
def wrap32 (x : Int) : Int := (x + 2147483648) % 4294967296 - 2147483648

/-! ## Top-level declarations of the driver -/

/-- The macro `NOT_FOUND`, `(-1)`. -/
def NOT_FOUND : Int := -1

/-- The global test array `b`. -/
def b : List Int := [5, 10, 15, 20, 25, 30, 35, 40, 45, 50, 55, 60]

/-- The global `m = sizeof(b) / sizeof(b[0])`, the number of elements of `b`. -/
def m : Int := b.length

/-! ## The search -/

/-- Ways a run of `binsea` can end without returning. -/
inductive Err where
  | outOfBounds
  | outOfFuel
  deriving DecidableEq, Repr

/-- Equality of outcomes is decidable. -/
instance instDecidableEqOutcome : DecidableEq (Except Err Int)
  | .ok x, .ok y =>
    if h : x = y then isTrue (congrArg Except.ok h)
    else isFalse (fun h' => h (Except.ok.inj h'))
  | .error e, .error f =>
    if h : e = f then isTrue (congrArg Except.error h)
    else isFalse (fun h' => h (Except.error.inj h'))
  | .ok _, .error _ => isFalse (fun h' => Except.noConfusion h')
  | .error _, .ok _ => isFalse (fun h' => Except.noConfusion h')

/-- The read `a[i]`: defined for `0 ≤ i < length a` only. -/
def readArr (a : List Int) (i : Int) : Option Int :=
  if 0 ≤ i then a[i.toNat]? else none

/-- The expression `(hi+lo)/2` of `binsea`, as 32-bit `int` arithmetic computes it. -/
def midpoint (lo hi : Int) : Int := Int.tdiv (wrap32 (hi + lo)) 2

/-- The function `binsea( key, a, lo, hi )`, with a bound on the recursion depth. -/
def binsea : Nat → Int → List Int → Int → Int → Except Err Int
  | 0, _, _, _, _ => .error .outOfFuel
  | fuel + 1, key, a, lo, hi =>
    if wrap32 (hi - lo) = 1 then
      match readArr a lo with
      | none => .error .outOfBounds
      | some x => if x = key then .ok lo else .ok NOT_FOUND
    else
      let mid := midpoint lo hi
      match readArr a mid with
      | none => .error .outOfBounds
      | some x =>
        if key < x then binsea fuel key a lo mid
        else binsea fuel key a mid hi

/-- The arguments `(lo', hi')` of the recursive call that the body of
`binsea( key, a, lo, hi )` makes, if it makes one. -/
def binseaCall (key : Int) (a : List Int) (lo hi : Int) : Option (Int × Int) :=
  if wrap32 (hi - lo) = 1 then none
  else
    let mid := midpoint lo hi
    match readArr a mid with
    | none => none
    | some x => if key < x then some (lo, mid) else some (mid, hi)

/-- The range `q` is reached from the range `p` by the recursion of `binsea`:
zero or more recursive calls lead from `p` to `q`. -/
def Reach (key : Int) (a : List Int) : Int × Int → Int × Int → Prop :=
  Relation.ReflTransGen (fun p q => binseaCall key a p.1 p.2 = some q)

/-- What a run of `binsea` did: how it ended, and how many ordering tests
`key < a[mid]`, equality tests `a[lo] == key` and recursive calls it performed. -/
structure Run where
  result : Except Err Int
  ltTests : Nat
  eqTests : Nat
  calls : Nat
  deriving DecidableEq

/-- Account for one ordering test followed by one recursive call. -/
def Run.afterCall (r : Run) : Run :=
  ⟨r.result, r.ltTests + 1, r.eqTests, r.calls + 1⟩

/-- The function `binsea` again, counting the comparisons and calls it performs. -/
def binseaRun : Nat → Int → List Int → Int → Int → Run
  | 0, _, _, _, _ => ⟨.error .outOfFuel, 0, 0, 0⟩
  | fuel + 1, key, a, lo, hi =>
    if wrap32 (hi - lo) = 1 then
      match readArr a lo with
      | none => ⟨.error .outOfBounds, 0, 0, 0⟩
      | some x => if x = key then ⟨.ok lo, 0, 1, 0⟩ else ⟨.ok NOT_FOUND, 0, 1, 0⟩
    else
      let mid := midpoint lo hi
      match readArr a mid with
      | none => ⟨.error .outOfBounds, 0, 0, 0⟩
      | some x =>
        if key < x then (binseaRun fuel key a lo mid).afterCall
        else (binseaRun fuel key a mid hi).afterCall

/-- The array `[0, 1, ..., n-1]`, a strictly increasing array of `n` elements. -/
def ramp (n : Nat) : List Int := (List.range n).map Int.ofNat

/-- The array of `n` zeros. -/
def zeros (n : Nat) : List Int := List.replicate n 0

/-- The midpoint as the specification words it, `lo + (hi - lo) / 2` (the
alternative of note 7), in 32-bit `int` arithmetic. -/
def midpointSpec (lo hi : Int) : Int := wrap32 (lo + Int.tdiv (wrap32 (hi - lo)) 2)

/-- The search as the specification words it: `binsea` with the midpoint
`lo + (hi - lo) / 2` in place of `(hi+lo)/2`. -/
def binseaSpec : Nat → Int → List Int → Int → Int → Except Err Int
  | 0, _, _, _, _ => .error .outOfFuel
  | fuel + 1, key, a, lo, hi =>
    if wrap32 (hi - lo) = 1 then
      match readArr a lo with
      | none => .error .outOfBounds
      | some x => if x = key then .ok lo else .ok NOT_FOUND
    else
      let mid := midpointSpec lo hi
      match readArr a mid with
      | none => .error .outOfBounds
      | some x =>
        if key < x then binseaSpec fuel key a lo mid
        else binseaSpec fuel key a mid hi

/-- The indices `j` of the array reads `a[j]` that a run of `binsea` performs, in
order: `a[lo]` in the base case, `a[mid]` in a recursive step. A read outside the
array is listed too; it is the last one of its run. -/
def binseaReads : Nat → Int → List Int → Int → Int → List Int
  | 0, _, _, _, _ => []
  | fuel + 1, key, a, lo, hi =>
    if wrap32 (hi - lo) = 1 then [lo]
    else
      let mid := midpoint lo hi
      match readArr a mid with
      | none => [mid]
      | some x =>
        if key < x then mid :: binseaReads fuel key a lo mid
        else mid :: binseaReads fuel key a mid hi

/-- The array `a[i] = f i` of `n` elements. -/
def table (n : Nat) (f : Nat → Int) : List Int := (List.range n).map f

/-- The word at index `i`, counted from the start of the array `a`, in a flat
memory: the element `a[i]` inside the array, the word `stray i` of the memory
around the array outside it. -/
def memOf (a : List Int) (stray : Int → Int) (i : Int) : Int :=
  match readArr a i with
  | some x => x
  | none => stray i

/-- The function `binsea( key, a, lo, hi )` without any bounds check, as the
source has it: every read `a[i]` yields the word `mem i` of a flat memory. The
result is `none` when the fuel runs out. -/
def binseaFlat : Nat → Int → (Int → Int) → Int → Int → Option Int
  | 0, _, _, _, _ => none
  | fuel + 1, key, mem, lo, hi =>
    if wrap32 (hi - lo) = 1 then
      if mem lo = key then some lo else some NOT_FOUND
    else
      let mid := midpoint lo hi
      if key < mem mid then binseaFlat fuel key mem lo mid
      else binseaFlat fuel key mem mid hi

/-- The arguments `(lo', hi')` of the recursive call that the body of `binsea`
makes on a flat memory; `none` in the base case only. -/
def binseaCallFlat (key : Int) (mem : Int → Int) (lo hi : Int) : Option (Int × Int) :=
  if wrap32 (hi - lo) = 1 then none
  else
    let mid := midpoint lo hi
    if key < mem mid then some (lo, mid) else some (mid, hi)

/-- The range `q` is reached from the range `p` by the recursion of `binsea` on a
flat memory. -/
def ReachFlat (key : Int) (mem : Int → Int) : Int × Int → Int × Int → Prop :=
  Relation.ReflTransGen (fun p q => binseaCallFlat key mem p.1 p.2 = some q)

/-! ## Arithmetic of the midpoint -/

theorem wrap32_of_range {x : Int} (h1 : -2147483648 ≤ x) (h2 : x ≤ 2147483647) :
    wrap32 x = x := by
  unfold wrap32; omega

theorem wrap32_sub_eq_one_iff {lo hi : Int} (h1 : lo < hi) (h2 : hi - lo ≤ 2147483647) :
    wrap32 (hi - lo) = 1 ↔ hi - lo = 1 := by
  rw [wrap32_of_range (by omega) h2]

theorem midpoint_eq {lo hi : Int} (h0 : 0 ≤ hi + lo) (h1 : hi + lo ≤ 2147483647) :
    midpoint lo hi = (hi + lo) / 2 := by
  unfold midpoint
  rw [wrap32_of_range (by omega) h1, Int.tdiv_eq_ediv h0 (by decide)]

theorem midpoint_neg_of_overflow {lo hi : Int} (h1 : lo ≤ 2147483647) (h2 : hi ≤ 2147483647)
    (h3 : 2147483647 < hi + lo) : midpoint lo hi < 0 := by
  unfold midpoint
  have hw : wrap32 (hi + lo) = hi + lo - 4294967296 := by unfold wrap32; omega
  rw [hw]
  have hneg : Int.tdiv (-(4294967296 - (hi + lo))) 2 = -(Int.tdiv (4294967296 - (hi + lo)) 2) :=
    Int.neg_tdiv _ _
  have he : hi + lo - 4294967296 = -(4294967296 - (hi + lo)) := by omega
  rw [he, hneg, Int.tdiv_eq_ediv (by omega) (by decide)]
  omega

theorem midpoint_between {lo hi : Int} (h0 : 0 ≤ lo) (h1 : 2 ≤ hi - lo)
    (h2 : hi + lo ≤ 2147483647) :
    midpoint lo hi = lo + (hi - lo) / 2 ∧ lo < midpoint lo hi ∧ midpoint lo hi < hi := by
  rw [midpoint_eq (by omega) h2]; omega

/-! ## Array reads -/

theorem readArr_bounds {a : List Int} {i x : Int} (h : readArr a i = some x) :
    0 ≤ i ∧ i < a.length := by
  unfold readArr at h
  split at h
  · rename_i h0
    obtain ⟨hlt, -⟩ := List.getElem?_eq_some.mp h
    omega
  · cases h

theorem readArr_defined {a : List Int} {i : Int} (h0 : 0 ≤ i) (h1 : i < a.length) :
    ∃ x, readArr a i = some x := by
  unfold readArr
  rw [if_pos h0]
  exact ⟨a[i.toNat], List.getElem?_eq_getElem (by omega)⟩

theorem readArr_le_of_sorted {a : List Int} (hs : a.Pairwise (fun x y => x ≤ y))
    {i j x y : Int} (hi : readArr a i = some x) (hj : readArr a j = some y) (hij : i ≤ j) :
    x ≤ y := by
  have bi := readArr_bounds hi
  have bj := readArr_bounds hj
  unfold readArr at hi hj
  rw [if_pos bi.1] at hi
  rw [if_pos bj.1] at hj
  obtain ⟨hli, rfl⟩ := List.getElem?_eq_some.mp hi
  obtain ⟨hlj, rfl⟩ := List.getElem?_eq_some.mp hj
  rcases Nat.lt_or_ge i.toNat j.toNat with hlt | hge
  · exact List.pairwise_iff_getElem.mp hs _ _ hli hlj hlt
  · have : i.toNat = j.toNat := by omega
    simp [this]

theorem readArr_lt_of_increasing {a : List Int} (hs : a.Pairwise (fun x y => x < y))
    {i j x y : Int} (hi : readArr a i = some x) (hj : readArr a j = some y) (hij : i < j) :
    x < y := by
  have bi := readArr_bounds hi
  have bj := readArr_bounds hj
  unfold readArr at hi hj
  rw [if_pos bi.1] at hi
  rw [if_pos bj.1] at hj
  obtain ⟨hli, rfl⟩ := List.getElem?_eq_some.mp hi
  obtain ⟨hlj, rfl⟩ := List.getElem?_eq_some.mp hj
  exact List.pairwise_iff_getElem.mp hs _ _ hli hlj (by omega)

theorem sorted_of_increasing {a : List Int} (hs : a.Pairwise (fun x y => x < y)) :
    a.Pairwise (fun x y => x ≤ y) :=
  hs.imp (fun h => le_of_lt h)

/-! ## Unfolding one call of `binsea` -/

theorem binsea_base (fuel : Nat) (key : Int) (a : List Int) (lo hi x : Int)
    (h1 : wrap32 (hi - lo) = 1) (hx : readArr a lo = some x) :
    binsea (fuel + 1) key a lo hi = if x = key then .ok lo else .ok NOT_FOUND := by
  simp [binsea, h1, hx]

theorem binsea_of_call (fuel : Nat) (key : Int) (a : List Int) (lo hi : Int) (q : Int × Int)
    (hc : binseaCall key a lo hi = some q) :
    binsea (fuel + 1) key a lo hi = binsea fuel key a q.1 q.2 := by
  unfold binseaCall at hc
  split at hc
  · cases hc
  · rename_i hne
    simp only at hc
    split at hc
    · cases hc
    · rename_i x hx
      split at hc <;> rename_i hk
      · cases hc; simp [binsea, hne, hx, hk]
      · cases hc; simp [binsea, hne, hx, hk]


theorem binsea_fault_base (fuel : Nat) (key : Int) (a : List Int) (lo hi : Int)
    (h1 : wrap32 (hi - lo) = 1) (hx : readArr a lo = none) :
    binsea (fuel + 1) key a lo hi = .error .outOfBounds := by
  simp [binsea, h1, hx]

theorem binsea_fault_mid (fuel : Nat) (key : Int) (a : List Int) (lo hi : Int)
    (h1 : ¬ wrap32 (hi - lo) = 1) (hx : readArr a (midpoint lo hi) = none) :
    binsea (fuel + 1) key a lo hi = .error .outOfBounds := by
  simp [binsea, h1, hx]

theorem binseaCall_of_read (key : Int) (a : List Int) (lo hi x : Int)
    (h1 : ¬ wrap32 (hi - lo) = 1) (hx : readArr a (midpoint lo hi) = some x) :
    binseaCall key a lo hi
      = some (if key < x then (lo, midpoint lo hi) else (midpoint lo hi, hi)) := by
  unfold binseaCall
  rw [if_neg h1]
  simp only [hx]
  split <;> rfl

/-- Under the precondition of one recursive step the body reads `a[mid]` inside
the array and makes the recursive call. -/
theorem binseaCall_of_pre (key : Int) {a : List Int} {lo hi : Int} (h0 : 0 ≤ lo)
    (h1 : 2 ≤ hi - lo) (h2 : hi ≤ a.length) (h3 : hi + lo ≤ 2147483647) :
    ∃ x, readArr a (midpoint lo hi) = some x ∧
      binseaCall key a lo hi
        = some (if key < x then (lo, midpoint lo hi) else (midpoint lo hi, hi)) := by
  obtain ⟨-, hlo, hhi⟩ := midpoint_between h0 h1 h3
  obtain ⟨x, hx⟩ := @readArr_defined a (midpoint lo hi) (by omega) (by omega)
  have hne : ¬ wrap32 (hi - lo) = 1 := by
    rw [wrap32_of_range (by omega) (by omega)]; omega
  exact ⟨x, hx, binseaCall_of_read key a lo hi x hne hx⟩

/-- Whenever the body makes a recursive call from a range of non-negative `int`
indices with `lo < hi`, no overflow occurred and the midpoint is strictly inside. -/
theorem binseaCall_sound {key : Int} {a : List Int} {lo hi : Int} {q : Int × Int}
    (h0 : 0 ≤ lo) (h1 : lo < hi) (h2 : hi ≤ 2147483647)
    (hc : binseaCall key a lo hi = some q) :
    ∃ x, 2 ≤ hi - lo ∧ hi + lo ≤ 2147483647 ∧ readArr a (midpoint lo hi) = some x ∧
      lo < midpoint lo hi ∧ midpoint lo hi < hi ∧
      q = (if key < x then (lo, midpoint lo hi) else (midpoint lo hi, hi)) := by
  unfold binseaCall at hc
  split at hc
  · cases hc
  · rename_i hne
    simp only at hc
    split at hc
    · cases hc
    · rename_i x hx
      have hb := readArr_bounds hx
      have hsize : 2 ≤ hi - lo := by
        rw [wrap32_of_range (by omega) (by omega)] at hne; omega
      have hsum : hi + lo ≤ 2147483647 := by
        by_contra hcon
        have := @midpoint_neg_of_overflow lo hi (by omega) h2 (by omega)
        omega
      obtain ⟨-, hlo, hhi⟩ := midpoint_between h0 hsize hsum
      refine ⟨x, hsize, hsum, hx, hlo, hhi, ?_⟩
      split at hc <;> rename_i hk
      · rw [if_pos hk]; exact (Option.some.inj hc).symm
      · rw [if_neg hk]; exact (Option.some.inj hc).symm

/-- The index at which a run from a range satisfying the precondition ends:
`binsea` narrows to one index `p`, tests `a[p] == key` there, and in a
non-decreasing array `p` is at or above every occurrence of the key in the range. -/
theorem binsea_lands (key : Int) (a : List Int) (k : Nat) :
    ∀ lo hi : Int, 0 ≤ lo → lo < hi → hi ≤ a.length → hi ≤ 1073741824 →
      (hi - lo).toNat ≤ k →
      ∃ p x, lo ≤ p ∧ p < hi ∧ readArr a p = some x ∧ Reach key a (lo, hi) (p, p + 1) ∧
        (∀ fuel, k ≤ fuel →
          binsea fuel key a lo hi = if x = key then .ok p else .ok NOT_FOUND) ∧
        (a.Pairwise (fun u v => u ≤ v) →
          ∀ j, lo ≤ j → j < hi → readArr a j = some key → j ≤ p ∧ x = key) := by
  induction k with
  | zero => intro lo hi _ h1 _ _ hk; omega
  | succ k ih =>
    intro lo hi h0 h1 h2 h3 hk
    by_cases hsz : hi - lo = 1
    · obtain ⟨x, hx⟩ := @readArr_defined a lo h0 (by omega)
      have hhi : hi = lo + 1 := by omega
      refine ⟨lo, x, le_refl _, h1, hx, by rw [hhi]; exact Relation.ReflTransGen.refl, ?_, ?_⟩
      · intro fuel hf
        obtain ⟨f, rfl⟩ : ∃ f, fuel = f + 1 := ⟨fuel - 1, by omega⟩
        exact binsea_base f key a lo hi x (by rw [hsz]; rfl) hx
      · intro _ j hj1 hj2 hj
        have : j = lo := by omega
        subst this
        rw [hx] at hj
        exact ⟨le_refl _, Option.some.inj hj⟩
    · have hsize : 2 ≤ hi - lo := by omega
      have hsum : hi + lo ≤ 2147483647 := by omega
      obtain ⟨hmid, hlo, hhi⟩ := midpoint_between h0 hsize hsum
      obtain ⟨x, hx, hc⟩ := binseaCall_of_pre key h0 hsize h2 hsum
      by_cases hlt : key < x
      · rw [if_pos hlt] at hc
        obtain ⟨p, y, hp1, hp2, hy, hreach, hrun, hsorted⟩ :=
          ih lo (midpoint lo hi) h0 hlo (by omega) (by omega) (by omega)
        refine ⟨p, y, hp1, by omega, hy, Relation.ReflTransGen.head hc hreach, ?_, ?_⟩
        · intro fuel hf
          obtain ⟨f, rfl⟩ : ∃ f, fuel = f + 1 := ⟨fuel - 1, by omega⟩
          rw [binsea_of_call f key a lo hi _ hc]
          exact hrun f (by omega)
        · intro hs j hj1 hj2 hj
          have hjm : j < midpoint lo hi := by
            by_contra hcon
            have := readArr_le_of_sorted hs hx hj (by omega)
            omega
          exact hsorted hs j hj1 hjm hj
      · rw [if_neg hlt] at hc
        obtain ⟨p, y, hp1, hp2, hy, hreach, hrun, hsorted⟩ :=
          ih (midpoint lo hi) hi (by omega) hhi h2 h3 (by omega)
        refine ⟨p, y, by omega, hp2, hy, Relation.ReflTransGen.head hc hreach, ?_, ?_⟩
        · intro fuel hf
          obtain ⟨f, rfl⟩ : ∃ f, fuel = f + 1 := ⟨fuel - 1, by omega⟩
          rw [binsea_of_call f key a lo hi _ hc]
          exact hrun f (by omega)
        · intro hs j hj1 hj2 hj
          by_cases hjm : midpoint lo hi ≤ j
          · exact hsorted hs j hjm hj2 hj
          · have hle := readArr_le_of_sorted hs hj hx (by omega)
            have hxk : x = key := by omega
            rw [hxk] at hx
            obtain ⟨hmp, hyk⟩ := hsorted hs (midpoint lo hi) (le_refl _) hhi hx
            exact ⟨by omega, hyk⟩

/-- Partial correctness on any array: a returned value is `NOT_FOUND` or an index
of the range that holds the key. -/
theorem binsea_sound (key : Int) (a : List Int) (fuel : Nat) :
    ∀ lo hi r : Int, 0 ≤ lo → lo < hi → hi ≤ 2147483647 →
      binsea fuel key a lo hi = .ok r →
      r = NOT_FOUND ∨ (lo ≤ r ∧ r < hi ∧ readArr a r = some key) := by
  induction fuel with
  | zero => intro lo hi r _ _ _ h; simp [binsea] at h
  | succ f ih =>
    intro lo hi r h0 h1 h2 h
    by_cases hb : wrap32 (hi - lo) = 1
    · cases hx : readArr a lo with
      | none => rw [binsea_fault_base f key a lo hi hb hx] at h; cases h
      | some x =>
        rw [binsea_base f key a lo hi x hb hx] at h
        by_cases hk : x = key
        · rw [if_pos hk] at h
          have : lo = r := Except.ok.inj h
          subst this
          exact Or.inr ⟨le_refl _, h1, by rw [hx, hk]⟩
        · rw [if_neg hk] at h
          exact Or.inl (Except.ok.inj h).symm
    · cases hx : readArr a (midpoint lo hi) with
      | none => rw [binsea_fault_mid f key a lo hi hb hx] at h; cases h
      | some x =>
        have hc := binseaCall_of_read key a lo hi x hb hx
        obtain ⟨y, -, -, hy, hlo, hhi, -⟩ := binseaCall_sound h0 h1 h2 hc
        rw [binsea_of_call f key a lo hi _ hc] at h
        by_cases hk : key < x
        · rw [if_pos hk] at h
          rcases ih lo (midpoint lo hi) r h0 hlo (by omega) h with h' | ⟨r1, r2, r3⟩
          · exact Or.inl h'
          · exact Or.inr ⟨r1, by omega, r3⟩
        · rw [if_neg hk] at h
          rcases ih (midpoint lo hi) hi r (by omega) hhi h2 h with h' | ⟨r1, r2, r3⟩
          · exact Or.inl h'
          · exact Or.inr ⟨by omega, r2, r3⟩


/-! ## Ranges reached by the recursion -/

/-- One recursive call from a range of non-negative `int` indices with `lo < hi`
leads to a strictly shorter, non-empty range inside it. -/
theorem binseaCall_shrinks {key : Int} {a : List Int} {lo hi : Int} {q : Int × Int}
    (h0 : 0 ≤ lo) (h1 : lo < hi) (h2 : hi ≤ 2147483647)
    (hc : binseaCall key a lo hi = some q) :
    lo ≤ q.1 ∧ q.1 < q.2 ∧ q.2 ≤ hi ∧ q.2 - q.1 < hi - lo := by
  obtain ⟨x, -, -, -, hlo, hhi, hq⟩ := binseaCall_sound h0 h1 h2 hc
  by_cases hk : key < x
  · rw [if_pos hk] at hq; subst hq; simp only; omega
  · rw [if_neg hk] at hq; subst hq; simp only; omega

/-- Every range reached from a range of non-negative `int` indices with `lo < hi`
is a non-empty range inside it. -/
theorem reach_inside {key : Int} {a : List Int} {lo hi : Int} {q : Int × Int}
    (h0 : 0 ≤ lo) (h1 : lo < hi) (h2 : hi ≤ 2147483647)
    (hr : Reach key a (lo, hi) q) : lo ≤ q.1 ∧ q.1 < q.2 ∧ q.2 ≤ hi := by
  unfold Reach at hr
  induction hr with
  | refl => exact ⟨le_refl _, h1, le_refl _⟩
  | tail _ hstep ih =>
    obtain ⟨i1, i2, i3⟩ := ih
    obtain ⟨s1, s2, s3, -⟩ := binseaCall_shrinks (by omega) i2 (by omega) hstep
    exact ⟨by omega, s2, by omega⟩

/-! ## Counting comparisons -/

theorem binseaRun_result (key : Int) (a : List Int) (fuel : Nat) :
    ∀ lo hi : Int, (binseaRun fuel key a lo hi).result = binsea fuel key a lo hi := by
  induction fuel with
  | zero => intro lo hi; rfl
  | succ f ih =>
    intro lo hi
    unfold binseaRun binsea
    split
    · split
      · rfl
      · split <;> rfl
    · simp only
      split
      · rfl
      · split
        · exact ih _ _
        · exact ih _ _

theorem binseaRun_calls (key : Int) (a : List Int) (fuel : Nat) :
    ∀ lo hi : Int, (binseaRun fuel key a lo hi).calls = (binseaRun fuel key a lo hi).ltTests := by
  induction fuel with
  | zero => intro lo hi; rfl
  | succ f ih =>
    intro lo hi
    unfold binseaRun
    split
    · split
      · rfl
      · split <;> rfl
    · simp only
      split
      · rfl
      · split
        · simp only [Run.afterCall]; rw [ih]
        · simp only [Run.afterCall]; rw [ih]

theorem binseaRun_base (fuel : Nat) (key : Int) (a : List Int) (lo hi x : Int)
    (h1 : wrap32 (hi - lo) = 1) (hx : readArr a lo = some x) :
    binseaRun (fuel + 1) key a lo hi
      = ⟨if x = key then .ok lo else .ok NOT_FOUND, 0, 1, 0⟩ := by
  by_cases hk : x = key <;> simp [binseaRun, h1, hx, hk]

theorem binseaRun_fault_mid (fuel : Nat) (key : Int) (a : List Int) (lo hi : Int)
    (h1 : ¬ wrap32 (hi - lo) = 1) (hx : readArr a (midpoint lo hi) = none) :
    binseaRun (fuel + 1) key a lo hi = ⟨.error .outOfBounds, 0, 0, 0⟩ := by
  simp [binseaRun, h1, hx]

theorem binseaRun_of_call (fuel : Nat) (key : Int) (a : List Int) (lo hi : Int) (q : Int × Int)
    (hc : binseaCall key a lo hi = some q) :
    binseaRun (fuel + 1) key a lo hi = (binseaRun fuel key a q.1 q.2).afterCall := by
  unfold binseaCall at hc
  split at hc
  · cases hc
  · rename_i hne
    simp only at hc
    split at hc
    · cases hc
    · rename_i x hx
      split at hc <;> rename_i hk
      · cases hc; simp [binseaRun, hne, hx, hk]
      · cases hc; simp [binseaRun, hne, hx, hk]

/-- Cost of a run from a range satisfying the precondition: one equality test,
and a number `c` of ordering tests with `c = 0` or `2^(c-1) < hi - lo`. -/
theorem binseaRun_cost (key : Int) (a : List Int) (k : Nat) :
    ∀ lo hi : Int, 0 ≤ lo → lo < hi → hi ≤ a.length → hi ≤ 1073741824 →
      (hi - lo).toNat ≤ k → ∀ fuel, k ≤ fuel →
      (binseaRun fuel key a lo hi).eqTests = 1 ∧
      ((binseaRun fuel key a lo hi).ltTests = 0 ∨
        ∃ d, (binseaRun fuel key a lo hi).ltTests = d + 1 ∧ 2 ^ d < (hi - lo).toNat) := by
  induction k with
  | zero => intro lo hi _ h1 _ _ hk; omega
  | succ k ih =>
    intro lo hi h0 h1 h2 h3 hk fuel hf
    obtain ⟨f, rfl⟩ : ∃ f, fuel = f + 1 := ⟨fuel - 1, by omega⟩
    by_cases hsz : hi - lo = 1
    · obtain ⟨x, hx⟩ := @readArr_defined a lo h0 (by omega)
      have hb : wrap32 (hi - lo) = 1 := by rw [hsz]; rfl
      by_cases hxk : x = key <;> simp [binseaRun, hb, hx, hxk]
    · have hsize : 2 ≤ hi - lo := by omega
      have hsum : hi + lo ≤ 2147483647 := by omega
      obtain ⟨-, hlo, hhi⟩ := midpoint_between h0 hsize hsum
      obtain ⟨x, hx, hc⟩ := binseaCall_of_pre key h0 hsize h2 hsum
      have hmid : midpoint lo hi = (hi + lo) / 2 := midpoint_eq (by omega) hsum
      rw [binseaRun_of_call f key a lo hi _ hc]
      by_cases hlt : key < x
      · simp only [if_pos hlt, Run.afterCall]
        obtain ⟨e1, e2⟩ := ih lo (midpoint lo hi) h0 hlo (by omega) (by omega) (by omega) f
          (by omega)
        refine ⟨e1, Or.inr ?_⟩
        rcases e2 with e2 | ⟨d, e2, e3⟩
        · exact ⟨0, by rw [e2], by simp; omega⟩
        · exact ⟨d + 1, by rw [e2], by rw [pow_succ]; omega⟩
      · simp only [if_neg hlt, Run.afterCall]
        obtain ⟨e1, e2⟩ := ih (midpoint lo hi) hi (by omega) hhi h2 h3 (by omega) f
          (by omega)
        refine ⟨e1, Or.inr ?_⟩
        rcases e2 with e2 | ⟨d, e2, e3⟩
        · exact ⟨0, by rw [e2], by simp; omega⟩
        · exact ⟨d + 1, by rw [e2], by rw [pow_succ]; omega⟩


/-! ## Arrays with more than `2^30` elements -/

theorem ramp_length (n : Nat) : (ramp n).length = n := by
  simp [ramp]

theorem zeros_length (n : Nat) : (zeros n).length = n := by
  simp [zeros]

theorem readArr_ramp {n : Nat} {i : Int} (h0 : 0 ≤ i) (h1 : i < n) :
    readArr (ramp n) i = some i := by
  unfold readArr ramp
  rw [if_pos h0, List.getElem?_map, List.getElem?_range (by omega)]
  simp only [Option.map_some', Int.ofNat_eq_coe]
  congr 1
  omega

theorem readArr_zeros {n : Nat} {i : Int} (h0 : 0 ≤ i) (h1 : i < n) :
    readArr (zeros n) i = some 0 := by
  unfold readArr zeros
  rw [if_pos h0, List.getElem?_replicate, if_pos (by omega)]

theorem ramp_increasing (n : Nat) : (ramp n).Pairwise (fun x y => x < y) := by
  unfold ramp
  rw [List.pairwise_map]
  exact (List.pairwise_lt_range n).imp (fun h => by simpa using h)

theorem zeros_sorted (n : Nat) : (zeros n).Pairwise (fun x y => x ≤ y) := by
  unfold zeros
  rw [List.pairwise_replicate]
  exact Or.inr (le_refl _)

/-- On the range `[1073741823, 2147483647)` the sum `hi+lo` overflows, the
midpoint is negative and the read `a[mid]` is outside every array. -/
theorem binsea_upper_half_faults (key : Int) (a : List Int) (fuel : Nat) (r : Int) :
    binsea fuel key a 1073741823 2147483647 ≠ .ok r := by
  cases fuel with
  | zero => simp [binsea]
  | succ f =>
    have hne : ¬ wrap32 (2147483647 - 1073741823) = 1 := by decide
    have hmid : midpoint 1073741823 2147483647 = -536870913 := by decide
    have hx : readArr a (midpoint 1073741823 2147483647) = none := by
      rw [hmid]; rfl
    rw [binsea_fault_mid f key a _ _ hne hx]
    simp

/-- From the range `[0, 2147483647)`, whose sum `hi+lo` is `INT_MAX`, a key that is
not below `a[1073741823]` sends the search into the upper half, where it never
returns. -/
theorem binsea_whole_faults (key : Int) (a : List Int) (x : Int)
    (hx : readArr a 1073741823 = some x) (hk : ¬ key < x) (fuel : Nat) (r : Int) :
    binsea fuel key a 0 2147483647 ≠ .ok r := by
  cases fuel with
  | zero => simp [binsea]
  | succ f =>
    have hne : ¬ wrap32 (2147483647 - 0) = 1 := by decide
    have hmid : midpoint 0 2147483647 = 1073741823 := by decide
    have hc : binseaCall key a 0 2147483647 = some (1073741823, 2147483647) := by
      have := binseaCall_of_read key a 0 2147483647 x hne (by rw [hmid]; exact hx)
      rw [if_neg hk, hmid] at this
      exact this
    rw [binsea_of_call f key a _ _ _ hc]
    exact binsea_upper_half_faults key a f r

/-- The same run performs no equality test. -/
theorem binseaRun_whole_no_eqTest (key : Int) (a : List Int) (x : Int)
    (hx : readArr a 1073741823 = some x) (hk : ¬ key < x) (fuel : Nat) :
    (binseaRun fuel key a 0 2147483647).eqTests = 0 := by
  cases fuel with
  | zero => rfl
  | succ f =>
    have hne : ¬ wrap32 (2147483647 - 0) = 1 := by decide
    have hmid : midpoint 0 2147483647 = 1073741823 := by decide
    have hc : binseaCall key a 0 2147483647 = some (1073741823, 2147483647) := by
      have := binseaCall_of_read key a 0 2147483647 x hne (by rw [hmid]; exact hx)
      rw [if_neg hk, hmid] at this
      exact this
    rw [binseaRun_of_call f key a _ _ _ hc]
    cases f with
    | zero => rfl
    | succ g =>
      have hne2 : ¬ wrap32 (2147483647 - 1073741823) = 1 := by decide
      have hmid2 : midpoint 1073741823 2147483647 = -536870913 := by decide
      have hx2 : readArr a (midpoint 1073741823 2147483647) = none := by
        rw [hmid2]; rfl
      rw [binseaRun_fault_mid g key a _ _ hne2 hx2]
      rfl

/-! ## The midpoint of the specification -/

theorem midpointSpec_eq {lo hi : Int} (h0 : 0 ≤ lo) (h1 : lo ≤ hi) (h2 : hi ≤ 2147483647) :
    midpointSpec lo hi = lo + (hi - lo) / 2 := by
  unfold midpointSpec
  have e1 : wrap32 (hi - lo) = hi - lo := wrap32_of_range (by omega) (by omega)
  rw [e1, Int.tdiv_eq_ediv (by omega) (by decide), wrap32_of_range (by omega) (by omega)]

theorem midpoint_eq_midpointSpec {lo hi : Int} (h0 : 0 ≤ lo) (h1 : lo ≤ hi)
    (h2 : hi + lo ≤ 2147483647) : midpoint lo hi = midpointSpec lo hi := by
  rw [midpoint_eq (by omega) h2, midpointSpec_eq h0 h1 (by omega)]
  omega

/-- With every sum of the recursion representable, `binsea` and the search of the
specification take the same steps. -/
theorem binsea_eq_binseaSpec (key : Int) (a : List Int) (fuel : Nat) :
    ∀ lo hi : Int, 0 ≤ lo → lo < hi → hi ≤ 1073741824 →
      binsea fuel key a lo hi = binseaSpec fuel key a lo hi := by
  induction fuel with
  | zero => intro lo hi _ _ _; rfl
  | succ f ih =>
    intro lo hi h0 h1 h2
    unfold binsea binseaSpec
    by_cases hb : wrap32 (hi - lo) = 1
    · rw [if_pos hb, if_pos hb]
    · rw [if_neg hb, if_neg hb]
      have hsize : 2 ≤ hi - lo := by
        rw [wrap32_of_range (by omega) (by omega)] at hb; omega
      have hmid : midpointSpec lo hi = midpoint lo hi :=
        (midpoint_eq_midpointSpec h0 (by omega) (by omega)).symm
      obtain ⟨-, hlo, hhi⟩ := midpoint_between h0 hsize (by omega)
      simp only [hmid]
      split
      · rfl
      · split
        · exact ih lo (midpoint lo hi) h0 hlo (by omega)
        · exact ih (midpoint lo hi) hi (by omega) hhi h2

/-- On an array of zeros the search of the specification for the key 0 returns the
last index of the range, also when the array has more than `2^30` elements. -/
theorem binseaSpec_zeros (n : Nat) (k : Nat) :
    ∀ lo hi : Int, 0 ≤ lo → lo < hi → hi ≤ n → hi ≤ 2147483647 → (hi - lo).toNat ≤ k →
      ∀ fuel, k ≤ fuel → binseaSpec fuel 0 (zeros n) lo hi = .ok (hi - 1) := by
  induction k with
  | zero => intro lo hi _ h1 _ _ hk; omega
  | succ k ih =>
    intro lo hi h0 h1 h2 h3 hk fuel hf
    obtain ⟨f, rfl⟩ : ∃ f, fuel = f + 1 := ⟨fuel - 1, by omega⟩
    unfold binseaSpec
    by_cases hsz : hi - lo = 1
    · have hb : wrap32 (hi - lo) = 1 := by rw [hsz]; rfl
      have hlo : lo = hi - 1 := by omega
      rw [if_pos hb, readArr_zeros h0 (by omega)]
      simp [hlo]
    · have hb : ¬ wrap32 (hi - lo) = 1 := by
        rw [wrap32_of_range (by omega) (by omega)]; exact hsz
      have hmid : midpointSpec lo hi = lo + (hi - lo) / 2 := midpointSpec_eq h0 (by omega) h3
      rw [if_neg hb]
      simp only
      rw [readArr_zeros (by omega) (by omega)]
      simp only [lt_self_iff_false, if_false]
      exact ih (midpointSpec lo hi) hi (by omega) (by omega) h2 h3 (by omega) f (by omega)

/-! ## The reads of a run -/

theorem binseaReads_of_call (fuel : Nat) (key : Int) (a : List Int) (lo hi : Int)
    (q : Int × Int) (hc : binseaCall key a lo hi = some q) :
    binseaReads (fuel + 1) key a lo hi = midpoint lo hi :: binseaReads fuel key a q.1 q.2 := by
  unfold binseaCall at hc
  split at hc
  · cases hc
  · rename_i hne
    simp only at hc
    split at hc
    · cases hc
    · rename_i x hx
      split at hc <;> rename_i hk
      · cases hc; simp [binseaReads, hne, hx, hk]
      · cases hc; simp [binseaReads, hne, hx, hk]

theorem binseaReads_fault_mid (fuel : Nat) (key : Int) (a : List Int) (lo hi : Int)
    (h1 : ¬ wrap32 (hi - lo) = 1) (hx : readArr a (midpoint lo hi) = none) :
    binseaReads (fuel + 1) key a lo hi = [midpoint lo hi] := by
  simp [binseaReads, h1, hx]

/-- A run of `binsea` stops with `Err.outOfBounds` exactly when one of the reads it
performs is outside the array. -/
theorem binsea_fault_iff_read (key : Int) (a : List Int) (fuel : Nat) :
    ∀ lo hi : Int, binsea fuel key a lo hi = .error .outOfBounds ↔
      ∃ j ∈ binseaReads fuel key a lo hi, readArr a j = none := by
  induction fuel with
  | zero => intro lo hi; simp [binsea, binseaReads]
  | succ f ih =>
    intro lo hi
    by_cases hb : wrap32 (hi - lo) = 1
    · cases hx : readArr a lo with
      | none => simp [binsea, binseaReads, hb, hx]
      | some x =>
        by_cases hk : x = key <;> simp [binsea, binseaReads, hb, hx, hk]
    · cases hx : readArr a (midpoint lo hi) with
      | none => simp [binsea, binseaReads, hb, hx]
      | some x =>
        by_cases hk : key < x
        · simp [binsea, binseaReads, hb, hx, hk, ih]
        · simp [binsea, binseaReads, hb, hx, hk, ih]

/-- Under the precondition every read of the run is inside the range. -/
theorem binseaReads_in_range (key : Int) (a : List Int) (fuel : Nat) :
    ∀ lo hi : Int, 0 ≤ lo → lo < hi → hi ≤ a.length → hi ≤ 1073741824 →
      ∀ j ∈ binseaReads fuel key a lo hi, lo ≤ j ∧ j < hi := by
  induction fuel with
  | zero => intro lo hi _ _ _ _ j hj; simp [binseaReads] at hj
  | succ f ih =>
    intro lo hi h0 h1 h2 h3 j hj
    by_cases hsz : hi - lo = 1
    · have hb : wrap32 (hi - lo) = 1 := by rw [hsz]; rfl
      simp [binseaReads, hb] at hj
      omega
    · have hsize : 2 ≤ hi - lo := by omega
      have hsum : hi + lo ≤ 2147483647 := by omega
      obtain ⟨-, hlo, hhi⟩ := midpoint_between h0 hsize hsum
      obtain ⟨x, hx, hc⟩ := binseaCall_of_pre key h0 hsize h2 hsum
      rw [binseaReads_of_call f key a lo hi _ hc, List.mem_cons] at hj
      rcases hj with hj | hj
      · omega
      · by_cases hk : key < x
        · simp only [if_pos hk] at hj
          have := ih lo (midpoint lo hi) h0 hlo (by omega) (by omega) j hj
          omega
        · simp only [if_neg hk] at hj
          have := ih (midpoint lo hi) hi (by omega) hhi h2 h3 j hj
          omega

/-! ## Flat memory -/

theorem table_length (n : Nat) (f : Nat → Int) : (table n f).length = n := by
  simp [table]

theorem readArr_table {n : Nat} (f : Nat → Int) {i : Int} (h0 : 0 ≤ i) (h1 : i < n) :
    readArr (table n f) i = some (f i.toNat) := by
  unfold readArr table
  rw [if_pos h0, List.getElem?_map, List.getElem?_range (by omega)]
  rfl

theorem readArr_none_of_outside {a : List Int} {i : Int} (h : ¬ (0 ≤ i ∧ i < a.length)) :
    readArr a i = none := by
  cases hx : readArr a i with
  | none => rfl
  | some x => exact absurd (readArr_bounds hx) h

theorem memOf_of_read {a : List Int} (stray : Int → Int) {i x : Int}
    (h : readArr a i = some x) : memOf a stray i = x := by
  simp [memOf, h]

theorem memOf_of_outside {a : List Int} (stray : Int → Int) {i : Int}
    (h : ¬ (0 ≤ i ∧ i < a.length)) : memOf a stray i = stray i := by
  simp [memOf, readArr_none_of_outside h]

/-- The memory around an array of zeros, in closed form. -/
theorem memOf_zeros (n : Nat) (stray : Int → Int) :
    memOf (zeros n) stray = fun i => if 0 ≤ i ∧ i < (n : Int) then 0 else stray i := by
  funext i
  by_cases h : 0 ≤ i ∧ i < (n : Int)
  · rw [if_pos h]; exact memOf_of_read stray (readArr_zeros h.1 h.2)
  · rw [if_neg h]; exact memOf_of_outside stray (by rw [zeros_length]; exact h)

/-- The memory around a tabulated array, in closed form. -/
theorem memOf_table (n : Nat) (f : Nat → Int) (stray : Int → Int) :
    memOf (table n f) stray
      = fun i => if 0 ≤ i ∧ i < (n : Int) then f i.toNat else stray i := by
  funext i
  by_cases h : 0 ≤ i ∧ i < (n : Int)
  · rw [if_pos h]; exact memOf_of_read stray (readArr_table f h.1 h.2)
  · rw [if_neg h]; exact memOf_of_outside stray (by rw [table_length]; exact h)

/-- A run of `binsea` that performs no read outside the array is the run on the
flat memory around the array, whatever the stray words are. -/
theorem binseaFlat_eq_binsea (key : Int) (a : List Int) (stray : Int → Int) (fuel : Nat) :
    ∀ lo hi : Int, binsea fuel key a lo hi ≠ .error .outOfBounds →
      binseaFlat fuel key (memOf a stray) lo hi = (binsea fuel key a lo hi).toOption := by
  induction fuel with
  | zero => intro lo hi _; rfl
  | succ f ih =>
    intro lo hi hne
    by_cases hb : wrap32 (hi - lo) = 1
    · cases hx : readArr a lo with
      | none => exact absurd (binsea_fault_base f key a lo hi hb hx) hne
      | some x =>
        rw [binsea_base f key a lo hi x hb hx]
        unfold binseaFlat
        rw [if_pos hb, memOf_of_read stray hx]
        split <;> rfl
    · cases hx : readArr a (midpoint lo hi) with
      | none => exact absurd (binsea_fault_mid f key a lo hi hb hx) hne
      | some x =>
        have hc := binseaCall_of_read key a lo hi x hb hx
        rw [binsea_of_call f key a lo hi _ hc] at hne ⊢
        unfold binseaFlat
        rw [if_neg hb]
        simp only [memOf_of_read stray hx]
        by_cases hk : key < x
        · simp only [if_pos hk] at hne ⊢
          exact ih _ _ hne
        · simp only [if_neg hk] at hne ⊢
          exact ih _ _ hne

/-- Under the precondition no run of `binsea` reads outside the array. -/
theorem binsea_no_fault (key : Int) (a : List Int) (fuel : Nat) (lo hi : Int)
    (h0 : 0 ≤ lo) (h1 : lo < hi) (h2 : hi ≤ a.length) (h3 : hi ≤ 1073741824) :
    binsea fuel key a lo hi ≠ .error .outOfBounds := by
  intro hfault
  obtain ⟨j, hj, hnone⟩ := (binsea_fault_iff_read key a fuel lo hi).mp hfault
  obtain ⟨j1, j2⟩ := binseaReads_in_range key a fuel lo hi h0 h1 h2 h3 j hj
  obtain ⟨x, hx⟩ := @readArr_defined a j (by omega) (by omega)
  rw [hx] at hnone
  cases hnone

theorem binseaFlat_of_call (fuel : Nat) (key : Int) (mem : Int → Int) (lo hi : Int)
    (q : Int × Int) (hc : binseaCallFlat key mem lo hi = some q) :
    binseaFlat (fuel + 1) key mem lo hi = binseaFlat fuel key mem q.1 q.2 := by
  unfold binseaCallFlat at hc
  split at hc
  · cases hc
  · rename_i hne
    simp only at hc
    split at hc <;> rename_i hk
    · cases hc; simp [binseaFlat, hne, hk]
    · cases hc; simp [binseaFlat, hne, hk]

theorem binseaCallFlat_of_step (key : Int) (mem : Int → Int) (lo hi : Int)
    (h1 : ¬ wrap32 (hi - lo) = 1) :
    binseaCallFlat key mem lo hi
      = some (if key < mem (midpoint lo hi) then (lo, midpoint lo hi)
          else (midpoint lo hi, hi)) := by
  unfold binseaCallFlat
  rw [if_neg h1]
  simp only
  split <;> rfl

/-- One recursive call on a flat memory from a range `0 ≤ lo < hi` whose sum is
representable leads to a strictly shorter, non-empty range inside it. -/
theorem binseaCallFlat_shrinks {key : Int} {mem : Int → Int} {lo hi : Int} {q : Int × Int}
    (h0 : 0 ≤ lo) (h1 : lo < hi) (h2 : hi + lo ≤ 2147483647)
    (hc : binseaCallFlat key mem lo hi = some q) :
    lo ≤ q.1 ∧ q.1 < q.2 ∧ q.2 ≤ hi ∧ q.2 - q.1 < hi - lo := by
  unfold binseaCallFlat at hc
  split at hc
  · cases hc
  · rename_i hne
    have hsize : 2 ≤ hi - lo := by
      rw [wrap32_of_range (by omega) (by omega)] at hne; omega
    obtain ⟨-, hlo, hhi⟩ := midpoint_between h0 hsize h2
    simp only at hc
    split at hc
    · cases hc; simp only; omega
    · cases hc; simp only; omega

/-- Every range reached on a flat memory from a range `0 ≤ lo < hi` with `2*hi - 2`
representable is a non-empty range inside it. -/
theorem reachFlat_inside {key : Int} {mem : Int → Int} {lo hi : Int} {q : Int × Int}
    (h0 : 0 ≤ lo) (h1 : lo < hi) (h2 : hi ≤ 1073741824)
    (hr : ReachFlat key mem (lo, hi) q) : lo ≤ q.1 ∧ q.1 < q.2 ∧ q.2 ≤ hi := by
  unfold ReachFlat at hr
  induction hr with
  | refl => exact ⟨le_refl _, h1, le_refl _⟩
  | tail _ hstep ih =>
    obtain ⟨i1, i2, i3⟩ := ih
    obtain ⟨s1, s2, s3, -⟩ := binseaCallFlat_shrinks (by omega) i2 (by omega) hstep
    exact ⟨by omega, s2, by omega⟩

/-- One recursive call on the flat memory around a non-decreasing array, from a
range inside the array whose sum is representable, keeps an occurrence of the key
in the range. -/
theorem binseaCallFlat_keeps_key {key : Int} {a : List Int} {stray : Int → Int}
    {lo hi : Int} {q : Int × Int}
    (hs : a.Pairwise (fun u v => u ≤ v)) (h0 : 0 ≤ lo) (h1 : lo < hi)
    (h2 : hi ≤ a.length) (h3 : hi + lo ≤ 2147483647)
    (hc : binseaCallFlat key (memOf a stray) lo hi = some q)
    (hin : ∃ j, lo ≤ j ∧ j < hi ∧ readArr a j = some key) :
    ∃ j, q.1 ≤ j ∧ j < q.2 ∧ readArr a j = some key := by
  unfold binseaCallFlat at hc
  split at hc
  · cases hc
  · rename_i hne
    have hsize : 2 ≤ hi - lo := by
      rw [wrap32_of_range (by omega) (by omega)] at hne; omega
    obtain ⟨-, hlo, hhi⟩ := midpoint_between h0 hsize h3
    obtain ⟨x, hx⟩ := @readArr_defined a (midpoint lo hi) (by omega) (by omega)
    obtain ⟨j, hj1, hj2, hj⟩ := hin
    simp only [memOf_of_read stray hx] at hc
    split at hc <;> rename_i hk
    · cases hc
      refine ⟨j, hj1, ?_, hj⟩
      by_contra hcon
      have := readArr_le_of_sorted hs hx hj (by simp only at hcon; omega)
      omega
    · cases hc
      by_cases hjm : midpoint lo hi ≤ j
      · exact ⟨j, hjm, hj2, hj⟩
      · have hle := readArr_le_of_sorted hs hj hx (by omega)
        have hxk : x = key := by omega
        exact ⟨midpoint lo hi, le_refl _, hhi, by rw [hx, hxk]⟩

/-- Along the recursion on the flat memory around a non-decreasing array, from a
range inside the array with `2*hi - 2` representable, the key stays in the range. -/
theorem reachFlat_keeps_key {key : Int} {a : List Int} {stray : Int → Int}
    {lo hi : Int} {q : Int × Int}
    (hs : a.Pairwise (fun u v => u ≤ v)) (h0 : 0 ≤ lo) (h1 : lo < hi)
    (h2 : hi ≤ a.length) (h3 : hi ≤ 1073741824)
    (hin : ∃ j, lo ≤ j ∧ j < hi ∧ readArr a j = some key)
    (hr : ReachFlat key (memOf a stray) (lo, hi) q) :
    ∃ j, q.1 ≤ j ∧ j < q.2 ∧ readArr a j = some key := by
  unfold ReachFlat at hr
  induction hr with
  | refl => exact hin
  | tail hprev hstep ih =>
    obtain ⟨i1, i2, i3⟩ := reachFlat_inside h0 h1 h3 hprev
    exact binseaCallFlat_keeps_key hs (by omega) i2 (by omega) (by omega) hstep ih

/-! ## Empty and inverted ranges -/

/-- Truncating division of a representable sum: the midpoint when the sum is not
negative, and when it is. -/
theorem midpoint_trunc {lo hi : Int} (h1 : -2147483648 ≤ hi + lo)
    (h2 : hi + lo ≤ 2147483647) :
    (0 ≤ hi + lo → midpoint lo hi = (hi + lo) / 2) ∧
    (hi + lo < 0 → midpoint lo hi = -((-(hi + lo)) / 2)) := by
  unfold midpoint
  rw [wrap32_of_range h1 h2]
  constructor
  · intro h; exact Int.tdiv_eq_ediv h (by decide)
  · intro h
    have he : hi + lo = -(-(hi + lo)) := by omega
    rw [he, Int.neg_tdiv, Int.tdiv_eq_ediv (by omega) (by decide)]
    simp

/-- An inverted range with representable difference is not a base case. -/
theorem wrap32_inverted_ne_one {lo hi : Int} (h1 : hi ≤ lo) (h5 : -2147483648 ≤ hi - lo) :
    ¬ wrap32 (hi - lo) = 1 := by
  rw [wrap32_of_range h5 (by omega)]; omega

/-- One recursive call on a flat memory from a range with
`-2^30 ≤ hi ≤ lo ≤ 2^30` and `hi+lo ≤ INT_MAX` leads to such a range again: no sum
and no difference wraps. -/
theorem binseaCallFlat_inverted {key : Int} {mem : Int → Int} {lo hi : Int} {q : Int × Int}
    (h1 : hi ≤ lo) (h2 : lo ≤ 1073741824) (h3 : -1073741824 ≤ hi)
    (h4 : hi + lo ≤ 2147483647)
    (hc : binseaCallFlat key mem lo hi = some q) :
    q.2 ≤ q.1 ∧ q.1 ≤ 1073741824 ∧ -1073741824 ≤ q.2 ∧ q.2 + q.1 ≤ 2147483647 := by
  obtain ⟨t1, t2⟩ := @midpoint_trunc lo hi (by omega) h4
  have hbetween : hi ≤ midpoint lo hi ∧ midpoint lo hi ≤ lo ∧
      midpoint lo hi + lo ≤ 2147483647 := by
    by_cases hs : 0 ≤ hi + lo
    · rw [t1 hs]; omega
    · have := t2 (by omega)
      omega
  unfold binseaCallFlat at hc
  split at hc
  · cases hc
  · simp only at hc
    split at hc
    · cases hc; simp only; omega
    · cases hc; simp only; omega

/-- Ranges reached on a flat memory from such an inverted range are inverted. -/
theorem reachFlat_inverted {key : Int} {mem : Int → Int} {lo hi : Int} {q : Int × Int}
    (h1 : hi ≤ lo) (h2 : lo ≤ 1073741824) (h3 : -1073741824 ≤ hi)
    (h4 : hi + lo ≤ 2147483647)
    (hr : ReachFlat key mem (lo, hi) q) :
    q.2 ≤ q.1 ∧ q.1 ≤ 1073741824 ∧ -1073741824 ≤ q.2 ∧ q.2 + q.1 ≤ 2147483647 := by
  unfold ReachFlat at hr
  induction hr with
  | refl => exact ⟨h1, h2, h3, h4⟩
  | tail _ hstep ih =>
    obtain ⟨i1, i2, i3, i4⟩ := ih
    exact binseaCallFlat_inverted i1 i2 i3 i4 hstep

/-- From such an inverted range no fuel makes the run on a flat memory return. -/
theorem binseaFlat_inverted_no_result (key : Int) (mem : Int → Int) (fuel : Nat) :
    ∀ lo hi : Int, hi ≤ lo → lo ≤ 1073741824 → -1073741824 ≤ hi →
      hi + lo ≤ 2147483647 → binseaFlat fuel key mem lo hi = none := by
  induction fuel with
  | zero => intro lo hi _ _ _ _; rfl
  | succ f ih =>
    intro lo hi h1 h2 h3 h4
    have hb := @wrap32_inverted_ne_one lo hi h1 (by omega)
    have hc := binseaCallFlat_of_step key mem lo hi hb
    obtain ⟨i1, i2, i3, i4⟩ := binseaCallFlat_inverted h1 h2 h3 h4 hc
    rw [binseaFlat_of_call f key mem lo hi _ hc]
    exact ih _ _ i1 i2 i3 i4

/-! ## The claims of the specification -/

/-- C1 (amended). Completeness: in a strictly increasing array, for a range
`0 ≤ lo < hi ≤ length a` with `2*hi - 2` representable as an `int` (so that every
sum `hi'+lo'` the recursion forms is representable), `binsea(a[i], a, lo, hi)`
returns exactly `i` for every `lo ≤ i < hi`, given fuel at least `hi - lo`. -/
theorem binsea_complete (a : List Int) (lo hi i x : Int)
    (hs : a.Pairwise (fun u v => u < v)) (h0 : 0 ≤ lo) (h1 : lo < hi)
    (h2 : hi ≤ a.length) (h3 : 2 * hi - 2 ≤ INT_MAX) (hi1 : lo ≤ i) (hi2 : i < hi)
    (hx : readArr a i = some x) (fuel : Nat) (hf : (hi - lo).toNat ≤ fuel) :
    binsea fuel x a lo hi = .ok i := by
  unfold INT_MAX at h3
  obtain ⟨p, y, hp1, hp2, hy, -, hrun, hsorted⟩ :=
    binsea_lands x a (hi - lo).toNat lo hi h0 h1 h2 (by omega) (le_refl _)
  obtain ⟨hip, hyx⟩ := hsorted (sorted_of_increasing hs) i hi1 hi2 hx
  have hpi : p = i := by
    by_contra hne
    have := readArr_lt_of_increasing hs hx hy (by omega)
    omega
  rw [hrun fuel hf, if_pos hyx, hpi]

/-- C1, the driver's Test 1: `binsea( 30, b, 0, m )` returns 5. -/
theorem binsea_complete_witness : binsea 12 30 b 0 m = .ok 5 :=
  binsea_complete b 0 m 5 30 (by decide) (by decide) (by decide) (by decide) (by decide)
    (by decide) (by decide) (by decide) 12 (by decide)

/-- C1 as stated fails: the array `[0, 1, ..., 2147483646]` is strictly increasing,
the range `[0, 2147483647)` has `hi+lo = INT_MAX`, and the key `a[2147483646]` is
never returned: the second call forms `hi+lo = 3221225470`, which overflows. -/
theorem binsea_complete_fails_on_large_array :
    (ramp 2147483647).Pairwise (fun u v => u < v) ∧
    (0 : Int) ≤ 0 ∧ (0 : Int) < 2147483647 ∧
    (2147483647 : Int) ≤ (ramp 2147483647).length ∧
    (2147483647 : Int) + 0 ≤ INT_MAX ∧
    readArr (ramp 2147483647) 2147483646 = some 2147483646 ∧
    ¬ ∃ fuel, binsea fuel 2147483646 (ramp 2147483647) 0 2147483647 = .ok 2147483646 := by
  refine ⟨ramp_increasing _, by decide, by decide, ?_, by decide, ?_, ?_⟩
  · rw [ramp_length]; decide
  · exact readArr_ramp (by decide) (by decide)
  · rintro ⟨fuel, h⟩
    exact binsea_whole_faults 2147483646 (ramp 2147483647) 1073741823
      (readArr_ramp (by decide) (by decide)) (by decide) fuel _ h

/-- C2 (amended). Absent keys: in a strictly increasing array, for a range
`0 ≤ lo < hi ≤ length a` with `2*hi - 2` representable as an `int`, a key that
differs from `a[j]` for all `lo ≤ j < hi` makes `binsea` return `NOT_FOUND`. -/
theorem binsea_absent (a : List Int) (lo hi key : Int)
    (_hs : a.Pairwise (fun u v => u < v)) (h0 : 0 ≤ lo) (h1 : lo < hi)
    (h2 : hi ≤ a.length) (h3 : 2 * hi - 2 ≤ INT_MAX)
    (habs : ∀ j, lo ≤ j → j < hi → readArr a j ≠ some key)
    (fuel : Nat) (hf : (hi - lo).toNat ≤ fuel) :
    binsea fuel key a lo hi = .ok NOT_FOUND := by
  unfold INT_MAX at h3
  obtain ⟨p, y, hp1, hp2, hy, -, hrun, -⟩ :=
    binsea_lands key a (hi - lo).toNat lo hi h0 h1 h2 (by omega) (le_refl _)
  have hne : ¬ y = key := fun h => habs p hp1 hp2 (by rw [hy, h])
  rw [hrun fuel hf, if_neg hne]

/-- C2, the driver's Test 2: `binsea( 12, b, 0, m )` returns `NOT_FOUND`. -/
theorem binsea_absent_witness : binsea 12 12 b 0 m = .ok (-1) :=
  binsea_absent b 0 m 12 (by decide) (by decide) (by decide) (by decide) (by decide)
    (by
      intro j hj0 hj1
      have hj2 : j < 12 := hj1
      interval_cases j <;> decide)
    12 (by decide)

/-- C2 as stated fails: in the strictly increasing array `[0, 1, ..., 2147483646]`
with the range `[0, 2147483647)` the absent key `2147483647` is not reported as
`NOT_FOUND`: the run reads outside the array after `hi+lo` overflows. -/
theorem binsea_absent_fails_on_large_array :
    (ramp 2147483647).Pairwise (fun u v => u < v) ∧
    (2147483647 : Int) ≤ (ramp 2147483647).length ∧
    (2147483647 : Int) + 0 ≤ INT_MAX ∧
    (∀ j : Int, 0 ≤ j → j < 2147483647 → readArr (ramp 2147483647) j ≠ some 2147483647) ∧
    ¬ ∃ fuel, binsea fuel 2147483647 (ramp 2147483647) 0 2147483647 = .ok NOT_FOUND := by
  refine ⟨ramp_increasing _, ?_, by decide, ?_, ?_⟩
  · rw [ramp_length]; decide
  · intro j hj0 hj1 h
    rw [readArr_ramp hj0 (by omega)] at h
    have := Option.some.inj h
    omega
  · rintro ⟨fuel, h⟩
    exact binsea_whole_faults 2147483647 (ramp 2147483647) 1073741823
      (readArr_ramp (by decide) (by decide)) (by decide) fuel _ h

/-- C3 (amended). Soundness of the result: on the flat memory around any array,
for a range `0 ≤ lo < hi ≤ length a` with `2*hi - 2` representable as an `int`, a
value `r` returned by `binsea` is `NOT_FOUND` or a non-negative index with
`lo ≤ r < hi` and `a[r] == key`, never both; and a value is returned, given fuel at
least `hi - lo`. -/
theorem binseaFlat_result_sound (key : Int) (a : List Int) (stray : Int → Int)
    (lo hi : Int) (h0 : 0 ≤ lo) (h1 : lo < hi) (h2 : hi ≤ a.length)
    (h3 : 2 * hi - 2 ≤ INT_MAX) :
    (∀ fuel r, binseaFlat fuel key (memOf a stray) lo hi = some r →
      r = NOT_FOUND ∨
        (r ≠ NOT_FOUND ∧ 0 ≤ r ∧ lo ≤ r ∧ r < hi ∧ readArr a r = some key)) ∧
    (∀ fuel, (hi - lo).toNat ≤ fuel →
      ∃ r, binseaFlat fuel key (memOf a stray) lo hi = some r) := by
  unfold INT_MAX at h3
  have hflat : ∀ fuel, binseaFlat fuel key (memOf a stray) lo hi
      = (binsea fuel key a lo hi).toOption := fun fuel =>
    binseaFlat_eq_binsea key a stray fuel lo hi
      (binsea_no_fault key a fuel lo hi h0 h1 h2 (by omega))
  constructor
  · intro fuel r h
    rw [hflat fuel] at h
    have hok : binsea fuel key a lo hi = .ok r := by
      cases hb : binsea fuel key a lo hi with
      | error e => rw [hb] at h; cases h
      | ok v => rw [hb] at h; cases h; rfl
    rcases binsea_sound key a fuel lo hi r h0 h1 (by omega) hok with h' | ⟨r1, r2, r3⟩
    · exact Or.inl h'
    · exact Or.inr ⟨by unfold NOT_FOUND; omega, by omega, r1, r2, r3⟩
  · intro fuel hf
    obtain ⟨p, y, -, -, -, -, hrun, -⟩ :=
      binsea_lands key a (hi - lo).toNat lo hi h0 h1 h2 (by omega) (le_refl _)
    rw [hflat fuel, hrun fuel hf]
    split
    · exact ⟨p, rfl⟩
    · exact ⟨NOT_FOUND, rfl⟩

/-- C3 on the unsorted array `[3, 1, 2]` with sevens around it: the search for 2
returns index 2, and every returned value obeys the dichotomy. -/
theorem binseaFlat_result_sound_witness :
    (∀ fuel r, binseaFlat fuel 2 (memOf [3, 1, 2] (fun _ => 7)) 0 3 = some r →
      r = NOT_FOUND ∨
        (r ≠ NOT_FOUND ∧ 0 ≤ r ∧ 0 ≤ r ∧ r < 3 ∧ readArr [3, 1, 2] r = some 2)) ∧
    binseaFlat 3 2 (memOf [3, 1, 2] (fun _ => 7)) 0 3 = some 2 :=
  ⟨(binseaFlat_result_sound 2 [3, 1, 2] (fun _ => 7) 0 3 (by decide) (by decide)
      (by decide) (by decide)).1,
    by decide⟩

/-- C3 as stated fails: the array of 2147483647 nines with a zero at index
1073741823 and the range `[0, 2147483647)` have `hi+lo = INT_MAX`; with fives in
the memory below index -1, the search for 5 wraps `hi+lo` in its second call,
reads `a[-536870913]`, goes on below the array and returns -2, which is neither
`NOT_FOUND` nor an index of the range. -/
theorem binseaFlat_returns_index_below_array :
    (0 : Int) ≤ 0 ∧ (0 : Int) < 2147483647 ∧
    (2147483647 : Int)
      ≤ (table 2147483647 (fun i => if i = 1073741823 then 0 else 9)).length ∧
    (2147483647 : Int) + 0 ≤ INT_MAX ∧
    binseaFlat 35 5
      (memOf (table 2147483647 (fun i => if i = 1073741823 then 0 else 9))
        (fun i => if i ≤ -2 then 5 else 9)) 0 2147483647 = some (-2) ∧
    (-2 : Int) ≠ NOT_FOUND ∧ ¬ ((0 : Int) ≤ -2) := by
  refine ⟨by decide, by decide, ?_, by decide, ?_, by decide, by decide⟩
  · rw [table_length]; decide
  · rw [memOf_table]; decide

/-- C4 (amended). Midpoint without overflow: for `int` indices `0 ≤ lo < hi` with
`hi - lo ≥ 2` whose sum `lo + hi` does not exceed `INT_MAX`, the sum does not wrap,
and the midpoint `(hi+lo)/2` that `binsea` computes equals `lo + (hi - lo) / 2` and
lies strictly between `lo` and `hi`. -/
theorem midpoint_without_overflow (lo hi : Int) (h0 : 0 ≤ lo) (h1 : 2 ≤ hi - lo)
    (_h2 : hi ≤ INT_MAX) (h3 : lo + hi ≤ INT_MAX) :
    wrap32 (hi + lo) = hi + lo ∧
    midpoint lo hi = lo + Int.tdiv (hi - lo) 2 ∧
    lo < midpoint lo hi ∧ midpoint lo hi < hi := by
  unfold INT_MAX at *
  obtain ⟨e1, e2, e3⟩ := midpoint_between h0 h1 (by omega)
  refine ⟨wrap32_of_range (by omega) (by omega), ?_, e2, e3⟩
  rw [e1, Int.tdiv_eq_ediv (by omega) (by decide)]

/-- C4 at indices near `INT_MAX / 2`. -/
theorem midpoint_without_overflow_witness :
    wrap32 (1073741824 + 1073741821) = 1073741824 + 1073741821 ∧
    midpoint 1073741821 1073741824 = 1073741821 + Int.tdiv (1073741824 - 1073741821) 2 ∧
    1073741821 < midpoint 1073741821 1073741824 ∧
    midpoint 1073741821 1073741824 < 1073741824 :=
  midpoint_without_overflow 1073741821 1073741824 (by decide) (by decide) (by decide)
    (by decide)

/-- C4 as stated fails: `lo = 1073741823` and `hi = 2147483647` are `int` indices
with `hi - lo ≥ 2` whose sum exceeds `INT_MAX`; the 32-bit sum wraps and the midpoint
`binsea` computes is `-536870913`, not `lo + (hi - lo) / 2 = 1610612735`. -/
theorem midpoint_wraps_on_large_indices :
    (0 : Int) ≤ 1073741823 ∧ (2 : Int) ≤ 2147483647 - 1073741823 ∧
    (2147483647 : Int) ≤ INT_MAX ∧
    midpoint 1073741823 2147483647 = -536870913 ∧
    midpoint 1073741823 2147483647 ≠ 1073741823 + Int.tdiv (2147483647 - 1073741823) 2 ∧
    ¬ (1073741823 < midpoint 1073741823 2147483647) := by
  decide


/-- C5 (amended). Termination: on any array, for a range `0 ≤ lo < hi ≤ length a`
with `2*hi - 2` representable as an `int`, every recursive call of the run is made
on a range that is strictly shorter than its caller's and has length at least 1, a
single-element range `[p, p+1)` is reached, and `binsea` returns a value, given
fuel at least `hi - lo`. -/
theorem binsea_terminates (key : Int) (a : List Int) (lo hi : Int)
    (h0 : 0 ≤ lo) (h1 : lo < hi) (h2 : hi ≤ a.length) (h3 : 2 * hi - 2 ≤ INT_MAX) :
    (∀ l h l' h', Reach key a (lo, hi) (l, h) → binseaCall key a l h = some (l', h') →
      1 ≤ h' - l' ∧ h' - l' < h - l) ∧
    (∃ p, lo ≤ p ∧ p < hi ∧ Reach key a (lo, hi) (p, p + 1)) ∧
    (∀ fuel, (hi - lo).toNat ≤ fuel → ∃ r, binsea fuel key a lo hi = .ok r) := by
  unfold INT_MAX at h3
  obtain ⟨p, y, hp1, hp2, -, hreach, hrun, -⟩ :=
    binsea_lands key a (hi - lo).toNat lo hi h0 h1 h2 (by omega) (le_refl _)
  refine ⟨?_, ⟨p, hp1, hp2, hreach⟩, ?_⟩
  · intro l h l' h' hr hc
    obtain ⟨i1, i2, i3⟩ := reach_inside h0 h1 (by omega) hr
    obtain ⟨-, s2, -, s4⟩ := binseaCall_shrinks (by omega) i2 (by omega) hc
    simp only at i1 i2 i3 s2 s4
    exact ⟨by omega, s4⟩
  · intro fuel hf
    rw [hrun fuel hf]
    split
    · exact ⟨p, rfl⟩
    · exact ⟨NOT_FOUND, rfl⟩

/-- C5 on the driver's array: every call shrinks the range, a single-element range
is reached and the search returns. -/
theorem binsea_terminates_witness :
    (∀ l h l' h', Reach 12 b (0, 12) (l, h) → binseaCall 12 b l h = some (l', h') →
      1 ≤ h' - l' ∧ h' - l' < h - l) ∧
    (∃ p, 0 ≤ p ∧ p < 12 ∧ Reach 12 b (0, 12) (p, p + 1)) ∧
    (∀ fuel, (12 - 0 : Int).toNat ≤ fuel → ∃ r, binsea fuel 12 b 0 12 = .ok r) :=
  binsea_terminates 12 b 0 12 (by decide) (by decide) (by decide) (by decide)

/-- C5 as stated fails: on the array of 2147483647 zeros with the range
`[0, 2147483647)`, whose sum `hi+lo` is `INT_MAX`, `binsea` returns no value for any
fuel: its second call reads `a[-536870913]`. -/
theorem binsea_never_returns_on_large_array :
    (0 : Int) ≤ 0 ∧ (0 : Int) < 2147483647 ∧
    (2147483647 : Int) ≤ (zeros 2147483647).length ∧
    (2147483647 : Int) + 0 ≤ INT_MAX ∧
    ¬ ∃ fuel r, binsea fuel 0 (zeros 2147483647) 0 2147483647 = .ok r := by
  refine ⟨by decide, by decide, ?_, by decide, ?_⟩
  · rw [zeros_length]; decide
  · rintro ⟨fuel, r, h⟩
    exact binsea_whole_faults 0 (zeros 2147483647) 0
      (readArr_zeros (by decide) (by decide)) (by decide) fuel r h

/-- C6 (amended). Key containment: on the flat memory around a non-decreasing
array, for a range `0 ≤ lo < hi ≤ length a` with `hi - lo ≥ 2` and `hi+lo`
representable as an `int`, and a key that occurs in `[lo, hi)`: the element
`a[mid]` is read, the recursive call is on `[lo, mid)` when `key < a[mid]` and on
`[mid, hi)` otherwise, and the key occurs in the range of that call; when also
`2*hi - 2` is representable, the key occurs in every range reached by the
recursion. -/
theorem binseaFlat_step_keeps_key (key : Int) (a : List Int) (stray : Int → Int)
    (lo hi : Int) (hs : a.Pairwise (fun u v => u ≤ v)) (h0 : 0 ≤ lo) (h1 : 2 ≤ hi - lo)
    (h2 : hi ≤ a.length) (h3 : hi + lo ≤ INT_MAX)
    (hin : ∃ j, lo ≤ j ∧ j < hi ∧ readArr a j = some key) :
    (∃ x q, readArr a (midpoint lo hi) = some x ∧
      q = (if key < x then (lo, midpoint lo hi) else (midpoint lo hi, hi)) ∧
      binseaCallFlat key (memOf a stray) lo hi = some q ∧
      ∃ j, q.1 ≤ j ∧ j < q.2 ∧ readArr a j = some key) ∧
    (2 * hi - 2 ≤ INT_MAX → ∀ l h, ReachFlat key (memOf a stray) (lo, hi) (l, h) →
      ∃ j, l ≤ j ∧ j < h ∧ readArr a j = some key) := by
  unfold INT_MAX at *
  constructor
  · obtain ⟨-, hlo, hhi⟩ := midpoint_between h0 h1 h3
    obtain ⟨x, hx⟩ := @readArr_defined a (midpoint lo hi) (by omega) (by omega)
    have hne : ¬ wrap32 (hi - lo) = 1 := by
      rw [wrap32_of_range (by omega) (by omega)]; omega
    have hc := binseaCallFlat_of_step key (memOf a stray) lo hi hne
    rw [memOf_of_read stray hx] at hc
    exact ⟨x, _, hx, rfl, hc,
      binseaCallFlat_keeps_key hs h0 (by omega) h2 h3 hc hin⟩
  · intro h4 l h hr
    exact reachFlat_keeps_key hs h0 (by omega) h2 (by omega) hin hr

/-- C6 on the driver's array with zeros around it: the key 30 = `b[5]` is below
`b[6]`, the call is on `[0, 6)`, and the key is still in it. -/
theorem binseaFlat_step_keeps_key_witness :
    binseaCallFlat 30 (memOf b (fun _ => 0)) 0 12 = some (0, 6) ∧
    ∃ x q, readArr b (midpoint 0 12) = some x ∧
      q = (if 30 < x then (0, midpoint 0 12) else (midpoint 0 12, 12)) ∧
      binseaCallFlat 30 (memOf b (fun _ => 0)) 0 12 = some q ∧
      ∃ j, q.1 ≤ j ∧ j < q.2 ∧ readArr b j = some 30 :=
  ⟨by decide,
    (binseaFlat_step_keeps_key 30 b (fun _ => 0) 0 12 (by decide) (by decide) (by decide)
      (by decide) (by decide) ⟨5, by decide, by decide, by decide⟩).1⟩

/-- C6 as stated fails, at one step and along the recursion. On the array of
1073741826 zeros with nines around it, the range `[1073741824, 1073741826)` holds
the key 0, but `hi+lo` wraps, the midpoint is -1073741823 and the call is on
`[1073741824, -1073741823)`, which holds no index. On the array of 2147483647
zeros the range `[0, 2147483647)` has `hi+lo = INT_MAX`, and the second call is on
`[1073741823, -536870913)`. -/
theorem binseaFlat_step_loses_key_on_large_array :
    ((zeros 1073741826).Pairwise (fun u v => u ≤ v) ∧
      (0 : Int) ≤ 1073741824 ∧ (2 : Int) ≤ 1073741826 - 1073741824 ∧
      (1073741826 : Int) ≤ (zeros 1073741826).length ∧
      readArr (zeros 1073741826) 1073741824 = some 0 ∧
      binseaCallFlat 0 (memOf (zeros 1073741826) (fun _ => 9)) 1073741824 1073741826
        = some (1073741824, -1073741823) ∧
      ¬ ∃ j : Int, 1073741824 ≤ j ∧ j < -1073741823 ∧
        readArr (zeros 1073741826) j = some 0) ∧
    ((2147483647 : Int) ≤ (zeros 2147483647).length ∧
      (2147483647 : Int) + 0 ≤ INT_MAX ∧
      readArr (zeros 2147483647) 0 = some 0 ∧
      ReachFlat 0 (memOf (zeros 2147483647) (fun _ => 9)) (0, 2147483647)
        (1073741823, -536870913) ∧
      ¬ ∃ j : Int, 1073741823 ≤ j ∧ j < -536870913 ∧
        readArr (zeros 2147483647) j = some 0) := by
  refine ⟨⟨zeros_sorted _, by decide, by decide, ?_, readArr_zeros (by decide) (by decide),
    ?_, ?_⟩, ⟨?_, by decide, readArr_zeros (by decide) (by decide), ?_, ?_⟩⟩
  · rw [zeros_length]; decide
  · rw [memOf_zeros]; decide
  · rintro ⟨j, h1, h2, -⟩; omega
  · rw [zeros_length]; decide
  · have s1 : binseaCallFlat 0 (memOf (zeros 2147483647) (fun _ => 9)) 0 2147483647
        = some (1073741823, 2147483647) := by rw [memOf_zeros]; decide
    have s2 : binseaCallFlat 0 (memOf (zeros 2147483647) (fun _ => 9))
        1073741823 2147483647 = some (1073741823, -536870913) := by
      rw [memOf_zeros]; decide
    exact Relation.ReflTransGen.head s1 (Relation.ReflTransGen.single s2)
  · rintro ⟨j, h1, h2, -⟩; omega

/-- C7 (amended). Empty sub-ranges never appear: for `0 ≤ lo` with `hi+lo`
representable, if `hi - lo ≥ 2` then the midpoint satisfies `lo < mid < hi`, so
`[lo, mid)` and `[mid, hi)` both have length at least 1; and if `hi - lo ≥ 1` and
`2*hi - 2` is representable as an `int`, then every range reached by the recursion,
for any key and any flat memory, has length at least 1. -/
theorem binseaFlat_subranges_nonempty (lo hi : Int) (h0 : 0 ≤ lo)
    (h3 : hi + lo ≤ INT_MAX) :
    (2 ≤ hi - lo →
      lo < midpoint lo hi ∧ midpoint lo hi < hi ∧
      1 ≤ midpoint lo hi - lo ∧ 1 ≤ hi - midpoint lo hi) ∧
    (1 ≤ hi - lo → 2 * hi - 2 ≤ INT_MAX →
      ∀ (key : Int) (mem : Int → Int) (l h : Int),
        ReachFlat key mem (lo, hi) (l, h) → 1 ≤ h - l) := by
  unfold INT_MAX at *
  constructor
  · intro h1
    obtain ⟨-, e2, e3⟩ := midpoint_between h0 h1 h3
    exact ⟨e2, e3, by omega, by omega⟩
  · intro h1 h4 key mem l h hr
    obtain ⟨-, i2, -⟩ := reachFlat_inside h0 (by omega) (by omega) hr
    simp only at i2
    omega

/-- C7 on the range `[0, 12)` of the driver. -/
theorem binseaFlat_subranges_nonempty_witness :
    (0 < midpoint 0 12 ∧ midpoint 0 12 < 12 ∧
      1 ≤ midpoint 0 12 - 0 ∧ 1 ≤ 12 - midpoint 0 12) ∧
    (∀ (key : Int) (mem : Int → Int) (l h : Int),
      ReachFlat key mem (0, 12) (l, h) → 1 ≤ h - l) ∧
    ReachFlat 30 (memOf b (fun _ => 0)) (0, 12) (5, 6) :=
  ⟨(binseaFlat_subranges_nonempty 0 12 (by decide) (by decide)).1 (by decide),
    (binseaFlat_subranges_nonempty 0 12 (by decide) (by decide)).2 (by decide) (by decide),
    Relation.ReflTransGen.head (by decide : binseaCallFlat 30 (memOf b (fun _ => 0)) 0 12
        = some (0, 6))
      (Relation.ReflTransGen.head (by decide : binseaCallFlat 30 (memOf b (fun _ => 0)) 0 6
          = some (3, 6))
        (Relation.ReflTransGen.head
          (by decide : binseaCallFlat 30 (memOf b (fun _ => 0)) 3 6 = some (4, 6))
          (Relation.ReflTransGen.single
            (by decide : binseaCallFlat 30 (memOf b (fun _ => 0)) 4 6 = some (5, 6)))))⟩

/-- C7 as stated fails: the range `[0, 2147483647)` is non-empty with
`hi+lo = INT_MAX`; on the array of 2147483647 zeros with sevens around it the
search for the key 3 reaches `[1073741823, 2147483647)`, wraps `hi+lo`, reads the
seven at index -536870913 and calls itself on `[1073741823, -536870913)`, a range
of negative length. -/
theorem binseaFlat_reaches_empty_range :
    (0 : Int) ≤ 0 ∧ (1 : Int) ≤ 2147483647 - 0 ∧ (2147483647 : Int) + 0 ≤ INT_MAX ∧
    ReachFlat 3 (memOf (zeros 2147483647) (fun _ => 7)) (0, 2147483647)
      (1073741823, -536870913) ∧
    ¬ ((1 : Int) ≤ -536870913 - 1073741823) := by
  refine ⟨by decide, by decide, by decide, ?_, by decide⟩
  have s1 : binseaCallFlat 3 (memOf (zeros 2147483647) (fun _ => 7)) 0 2147483647
      = some (1073741823, 2147483647) := by rw [memOf_zeros]; decide
  have s2 : binseaCallFlat 3 (memOf (zeros 2147483647) (fun _ => 7))
      1073741823 2147483647 = some (1073741823, -536870913) := by
    rw [memOf_zeros]; decide
  exact Relation.ReflTransGen.head s1 (Relation.ReflTransGen.single s2)

/-- C8 (amended). Duplicate keys: in a non-decreasing array, for a range
`0 ≤ lo < hi ≤ length a` with `2*hi - 2` representable as an `int`, if `i` is the
largest index in `[lo, hi)` with `a[i] == key` then `binsea(key, a, lo, hi)` returns
`i`, given fuel at least `hi - lo`. -/
theorem binsea_duplicates_upper_end (key : Int) (a : List Int) (lo hi i : Int)
    (hs : a.Pairwise (fun u v => u ≤ v)) (h0 : 0 ≤ lo) (h1 : lo < hi)
    (h2 : hi ≤ a.length) (h3 : 2 * hi - 2 ≤ INT_MAX) (hi1 : lo ≤ i) (hi2 : i < hi)
    (hkey : readArr a i = some key)
    (hmax : ∀ j, lo ≤ j → j < hi → readArr a j = some key → j ≤ i)
    (fuel : Nat) (hf : (hi - lo).toNat ≤ fuel) :
    binsea fuel key a lo hi = .ok i := by
  unfold INT_MAX at h3
  obtain ⟨p, y, hp1, hp2, hy, -, hrun, hsorted⟩ :=
    binsea_lands key a (hi - lo).toNat lo hi h0 h1 h2 (by omega) (le_refl _)
  obtain ⟨hip, hyk⟩ := hsorted hs i hi1 hi2 hkey
  have hpi : p ≤ i := hmax p hp1 hp2 (by rw [hy, hyk])
  have : p = i := by omega
  rw [hrun fuel hf, if_pos hyk, this]

/-- C8 on `[1, 2, 2, 2, 3]`: the key 2 occupies indices 1 to 3 and `binsea`
returns 3. -/
theorem binsea_duplicates_upper_end_witness : binsea 5 2 [1, 2, 2, 2, 3] 0 5 = .ok 3 :=
  binsea_duplicates_upper_end 2 [1, 2, 2, 2, 3] 0 5 3 (by decide) (by decide) (by decide)
    (by decide) (by decide) (by decide) (by decide) (by decide)
    (by
      intro j hj0 hj1 hj
      by_contra hcon
      have hj4 : j = 4 := by omega
      subst hj4
      revert hj
      decide)
    5 (by decide)

/-- C8 as stated fails: in the non-decreasing array of 2147483647 zeros with the
range `[0, 2147483647)`, whose sum `hi+lo` is `INT_MAX`, the key 0 occurs and its
largest index is 2147483646, yet `binsea` never returns it. -/
theorem binsea_duplicates_fails_on_large_array :
    (zeros 2147483647).Pairwise (fun u v => u ≤ v) ∧
    (2147483647 : Int) ≤ (zeros 2147483647).length ∧
    (2147483647 : Int) + 0 ≤ INT_MAX ∧
    readArr (zeros 2147483647) 2147483646 = some 0 ∧
    ¬ ∃ fuel, binsea fuel 0 (zeros 2147483647) 0 2147483647 = .ok 2147483646 := by
  refine ⟨zeros_sorted _, ?_, by decide, readArr_zeros (by decide) (by decide), ?_⟩
  · rw [zeros_length]; decide
  · rintro ⟨fuel, h⟩
    exact binsea_whole_faults 0 (zeros 2147483647) 0
      (readArr_zeros (by decide) (by decide)) (by decide) fuel _ h

/-- C9 (amended). Logarithmic number of steps: on any array, for a range
`0 ≤ lo < hi ≤ length a` with `2*hi - 2` representable as an `int`, the run of
`binsea` returns a value after `c` ordering tests `key < a[mid]` with
`2^c < 2*(hi - lo)`, as many recursive calls, and exactly one equality test
`a[lo] == key`, given fuel at least `hi - lo`. -/
theorem binsea_logarithmic (key : Int) (a : List Int) (lo hi : Int)
    (h0 : 0 ≤ lo) (h1 : lo < hi) (h2 : hi ≤ a.length) (h3 : 2 * hi - 2 ≤ INT_MAX)
    (fuel : Nat) (hf : (hi - lo).toNat ≤ fuel) :
    (binseaRun fuel key a lo hi).result = binsea fuel key a lo hi ∧
    (∃ r, (binseaRun fuel key a lo hi).result = .ok r) ∧
    (2 : Int) ^ (binseaRun fuel key a lo hi).ltTests < 2 * (hi - lo) ∧
    (binseaRun fuel key a lo hi).calls = (binseaRun fuel key a lo hi).ltTests ∧
    (binseaRun fuel key a lo hi).eqTests = 1 := by
  unfold INT_MAX at h3
  obtain ⟨p, y, -, -, -, -, hrun, -⟩ :=
    binsea_lands key a (hi - lo).toNat lo hi h0 h1 h2 (by omega) (le_refl _)
  obtain ⟨e1, e2⟩ :=
    binseaRun_cost key a (hi - lo).toNat lo hi h0 h1 h2 (by omega) (le_refl _) fuel hf
  refine ⟨binseaRun_result key a fuel lo hi, ?_, ?_, binseaRun_calls key a fuel lo hi, e1⟩
  · rw [binseaRun_result, hrun fuel hf]
    split
    · exact ⟨p, rfl⟩
    · exact ⟨NOT_FOUND, rfl⟩
  · rcases e2 with e2 | ⟨d, e2, e3⟩
    · rw [e2]; simp; omega
    · rw [e2, pow_succ]
      have hcast : ((2 ^ d : Nat) : Int) = (2 : Int) ^ d := by push_cast; rfl
      have hlt : ((2 ^ d : Nat) : Int) < hi - lo := by omega
      rw [hcast] at hlt
      omega

/-- C9 on the driver's Test 2: 12 elements are searched with 4 ordering tests,
4 recursive calls and one equality test. -/
theorem binsea_logarithmic_witness :
    binseaRun 12 12 b 0 12 = ⟨.ok (-1), 4, 1, 4⟩ ∧
    (2 : Int) ^ (binseaRun 12 12 b 0 12).ltTests < 2 * (12 - 0) ∧
    (binseaRun 12 12 b 0 12).eqTests = 1 :=
  ⟨by decide,
    (binsea_logarithmic 12 b 0 12 (by decide) (by decide) (by decide) (by decide) 12
      (by decide)).2.2.1,
    (binsea_logarithmic 12 b 0 12 (by decide) (by decide) (by decide) (by decide) 12
      (by decide)).2.2.2.2⟩

/-- C9 as stated fails: on the array of 2147483647 zeros with the range
`[0, 2147483647)`, whose sum `hi+lo` is `INT_MAX`, the run for the key 0 performs
no equality test and returns nothing, whatever the fuel. -/
theorem binsea_no_equality_test_on_large_array :
    (2147483647 : Int) ≤ (zeros 2147483647).length ∧
    (2147483647 : Int) + 0 ≤ INT_MAX ∧
    ¬ ∃ fuel, (binseaRun fuel 0 (zeros 2147483647) 0 2147483647).eqTests = 1 := by
  refine ⟨?_, by decide, ?_⟩
  · rw [zeros_length]; decide
  · rintro ⟨fuel, h⟩
    rw [binseaRun_whole_no_eqTest 0 (zeros 2147483647) 0
      (readArr_zeros (by decide) (by decide)) (by decide) fuel] at h
    cases h

/-- C10. Single-element base case: for `0 ≤ lo < length a` and any fuel of at
least one call, `binsea(key, a, lo, lo+1)` returns `lo` if `a[lo] == key` and
`NOT_FOUND` otherwise; the body makes no recursive call, and the run consists of
one equality test, no ordering test and no call. -/
theorem binsea_single_element (key : Int) (a : List Int) (lo : Int) (fuel : Nat)
    (h0 : 0 ≤ lo) (h1 : lo < a.length) :
    binsea (fuel + 1) key a lo (lo + 1)
      = (if readArr a lo = some key then .ok lo else .ok NOT_FOUND) ∧
    binseaCall key a lo (lo + 1) = none ∧
    binseaRun (fuel + 1) key a lo (lo + 1)
      = ⟨if readArr a lo = some key then .ok lo else .ok NOT_FOUND, 0, 1, 0⟩ := by
  obtain ⟨x, hx⟩ := readArr_defined h0 h1
  have hb : wrap32 (lo + 1 - lo) = 1 := by
    have : lo + 1 - lo = 1 := by omega
    rw [this]; rfl
  refine ⟨?_, ?_, ?_⟩
  · rw [binsea_base fuel key a lo (lo + 1) x hb hx, hx]
    by_cases hk : x = key <;> simp [hk]
  · unfold binseaCall; rw [if_pos hb]
  · rw [binseaRun_base fuel key a lo (lo + 1) x hb hx, hx]
    by_cases hk : x = key <;> simp [hk]

/-- C10 on the driver's array at index 5, for the key 30 that is there and the
key 12 that is not. -/
theorem binsea_single_element_witness :
    binsea 1 30 b 5 6 = .ok 5 ∧ binsea 1 12 b 5 6 = .ok (-1) ∧
    binseaCall 30 b 5 6 = none ∧ binseaRun 1 30 b 5 6 = ⟨.ok 5, 0, 1, 0⟩ :=
  ⟨(binsea_single_element 30 b 5 0 (by decide) (by decide)).1,
    (binsea_single_element 12 b 5 0 (by decide) (by decide)).1,
    (binsea_single_element 30 b 5 0 (by decide) (by decide)).2.1,
    (binsea_single_element 30 b 5 0 (by decide) (by decide)).2.2⟩

/-- C11. Two-element range: for `0 ≤ lo`, `lo+2 ≤ length a` and `2*lo+2`
representable, the midpoint of `[lo, lo+2)` is `lo+1`, the element `a[lo+1]` is
read, and `binsea(key, a, lo, lo+2)` is `binsea(key, a, lo, lo+1)` when
`key < a[lo+1]` and `binsea(key, a, lo+1, lo+2)` otherwise; the run returns a value
after one ordering test and one equality test. -/
theorem binsea_two_elements (key : Int) (a : List Int) (lo : Int) (fuel : Nat)
    (h0 : 0 ≤ lo) (h1 : lo + 2 ≤ a.length) (h2 : 2 * lo + 2 ≤ INT_MAX) :
    midpoint lo (lo + 2) = lo + 1 ∧
    ∃ x, readArr a (lo + 1) = some x ∧
      binseaCall key a lo (lo + 2) = some (if key < x then (lo, lo + 1) else (lo + 1, lo + 2)) ∧
      binsea (fuel + 2) key a lo (lo + 2)
        = (if key < x then binsea (fuel + 1) key a lo (lo + 1)
            else binsea (fuel + 1) key a (lo + 1) (lo + 2)) ∧
      (∃ r, binsea (fuel + 2) key a lo (lo + 2) = .ok r) ∧
      (binseaRun (fuel + 2) key a lo (lo + 2)).ltTests = 1 ∧
      (binseaRun (fuel + 2) key a lo (lo + 2)).eqTests = 1 := by
  unfold INT_MAX at h2
  have hmid : midpoint lo (lo + 2) = lo + 1 := by
    rw [midpoint_eq (by omega) (by omega)]; omega
  obtain ⟨x, hx, hc⟩ := @binseaCall_of_pre key a lo (lo + 2) h0 (by omega) h1 (by omega)
  rw [hmid] at hx hc
  obtain ⟨y, hy⟩ := @readArr_defined a lo h0 (by omega)
  have hb1 : wrap32 (lo + 1 - lo) = 1 := by
    have : lo + 1 - lo = 1 := by omega
    rw [this]; rfl
  have hb2 : wrap32 (lo + 2 - (lo + 1)) = 1 := by
    have : lo + 2 - (lo + 1) = 1 := by omega
    rw [this]; rfl
  refine ⟨hmid, x, hx, hc, ?_, ?_, ?_, ?_⟩
  · rw [binsea_of_call (fuel + 1) key a lo (lo + 2) _ hc]
    by_cases hk : key < x <;> simp [hk]
  · rw [binsea_of_call (fuel + 1) key a lo (lo + 2) _ hc]
    by_cases hk : key < x
    · simp only [if_pos hk]
      rw [binsea_base fuel key a lo (lo + 1) y hb1 hy]
      split
      · exact ⟨_, rfl⟩
      · exact ⟨_, rfl⟩
    · simp only [if_neg hk]
      rw [binsea_base fuel key a (lo + 1) (lo + 2) x hb2 hx]
      split
      · exact ⟨_, rfl⟩
      · exact ⟨_, rfl⟩
  · rw [binseaRun_of_call (fuel + 1) key a lo (lo + 2) _ hc]
    by_cases hk : key < x
    · simp only [if_pos hk]
      rw [binseaRun_base fuel key a lo (lo + 1) y hb1 hy]
      rfl
    · simp only [if_neg hk]
      rw [binseaRun_base fuel key a (lo + 1) (lo + 2) x hb2 hx]
      rfl
  · rw [binseaRun_of_call (fuel + 1) key a lo (lo + 2) _ hc]
    by_cases hk : key < x
    · simp only [if_pos hk]
      rw [binseaRun_base fuel key a lo (lo + 1) y hb1 hy]
      rfl
    · simp only [if_neg hk]
      rw [binseaRun_base fuel key a (lo + 1) (lo + 2) x hb2 hx]
      rfl

/-- C11 on the range `[4, 6)` of the driver's array: the key 30 is not below
`b[5]`, so the search continues on `[5, 6)` and returns 5. -/
theorem binsea_two_elements_witness :
    midpoint 4 (4 + 2) = 4 + 1 ∧
    ∃ x, readArr b (4 + 1) = some x ∧
      binseaCall 30 b 4 (4 + 2) = some (if 30 < x then (4, 4 + 1) else (4 + 1, 4 + 2)) ∧
      binsea (0 + 2) 30 b 4 (4 + 2)
        = (if 30 < x then binsea (0 + 1) 30 b 4 (4 + 1)
            else binsea (0 + 1) 30 b (4 + 1) (4 + 2)) ∧
      (∃ r, binsea (0 + 2) 30 b 4 (4 + 2) = .ok r) ∧
      (binseaRun (0 + 2) 30 b 4 (4 + 2)).ltTests = 1 ∧
      (binseaRun (0 + 2) 30 b 4 (4 + 2)).eqTests = 1 :=
  binsea_two_elements 30 b 4 0 (by decide) (by decide) (by decide)

/-- C12 (amended). Agreement of the midpoints: for `0 ≤ lo < hi` with
`lo + hi ≤ INT_MAX`, `(hi+lo)/2` equals `lo + (hi - lo) / 2` under truncating
division; and when also `2*hi - 2` is representable as an `int`, `binsea` gives the
same outcome as the search of the specification on every key, array and fuel. -/
theorem binsea_refines_spec (lo hi : Int) (h0 : 0 ≤ lo) (h1 : lo < hi)
    (h2 : lo + hi ≤ INT_MAX) :
    midpoint lo hi = midpointSpec lo hi ∧
    midpoint lo hi = lo + Int.tdiv (hi - lo) 2 ∧
    (2 * hi - 2 ≤ INT_MAX → ∀ (key : Int) (a : List Int) (fuel : Nat),
      binsea fuel key a lo hi = binseaSpec fuel key a lo hi) := by
  unfold INT_MAX at *
  refine ⟨midpoint_eq_midpointSpec h0 (by omega) (by omega), ?_, ?_⟩
  · rw [midpoint_eq (by omega) (by omega), Int.tdiv_eq_ediv (by omega) (by decide)]
    omega
  · intro h3 key a fuel
    exact binsea_eq_binseaSpec key a fuel lo hi h0 h1 (by omega)

/-- C12 on the driver's range `[0, 12)`: the midpoints agree, and both searches
for 30 in `b` return 5. -/
theorem binsea_refines_spec_witness :
    midpoint 0 12 = midpointSpec 0 12 ∧
    binsea 12 30 b 0 12 = binseaSpec 12 30 b 0 12 ∧
    binseaSpec 12 30 b 0 12 = .ok 5 :=
  ⟨(binsea_refines_spec 0 12 (by decide) (by decide) (by decide)).1,
    (binsea_refines_spec 0 12 (by decide) (by decide) (by decide)).2.2 (by decide) 30 b 12,
    by decide⟩

/-- C12 as stated fails: on the array of 2147483647 zeros with the range
`[0, 2147483647)`, where `lo + hi = INT_MAX`, the search of the specification
returns 2147483646 for the key 0 while `binsea` returns nothing for any fuel. -/
theorem binsea_differs_from_spec_on_large_array :
    (0 : Int) ≤ 0 ∧ (0 : Int) < 2147483647 ∧ (0 : Int) + 2147483647 ≤ INT_MAX ∧
    binseaSpec 2147483647 0 (zeros 2147483647) 0 2147483647 = .ok 2147483646 ∧
    ¬ ∃ fuel, binsea fuel 0 (zeros 2147483647) 0 2147483647
      = binseaSpec 2147483647 0 (zeros 2147483647) 0 2147483647 := by
  have hspec : binseaSpec 2147483647 0 (zeros 2147483647) 0 2147483647 = .ok 2147483646 :=
    binseaSpec_zeros 2147483647 2147483647 0 2147483647 (by decide) (by decide) (by decide)
      (by decide) (by decide) 2147483647 (le_refl _)
  refine ⟨by decide, by decide, by decide, hspec, ?_⟩
  rintro ⟨fuel, h⟩
  rw [hspec] at h
  exact binsea_whole_faults 0 (zeros 2147483647) 0
    (readArr_zeros (by decide) (by decide)) (by decide) fuel _ h

/-- C13 (amended). No guard for an empty or inverted range: for `int` indices with
`hi ≤ lo`, `hi+lo` representable, `-2^30 ≤ hi` and `lo ≤ 2^30` (so that no sum and
no difference formed by the recursion wraps), on any flat memory and for any key,
every range reached by the recursion has `hi' ≤ lo'` and is not a base case
`hi' - lo' == 1`, and for every fuel `binsea` returns nothing. -/
theorem binseaFlat_inverted_never_returns (key : Int) (mem : Int → Int) (lo hi : Int)
    (h1 : hi ≤ lo) (_h2 : INT_MIN ≤ hi + lo) (h3 : hi + lo ≤ INT_MAX)
    (h4 : -1073741824 ≤ hi) (h5 : lo ≤ 1073741824) :
    (∀ l h, ReachFlat key mem (lo, hi) (l, h) → h ≤ l ∧ ¬ wrap32 (h - l) = 1) ∧
    (∀ fuel, binseaFlat fuel key mem lo hi = none) := by
  unfold INT_MAX at h3
  constructor
  · intro l h hr
    obtain ⟨i1, i2, i3, -⟩ := reachFlat_inverted h1 h5 h4 h3 hr
    simp only at i1 i2 i3
    exact ⟨i1, wrap32_inverted_ne_one i1 (by omega)⟩
  · intro fuel
    exact binseaFlat_inverted_no_result key mem fuel lo hi h1 h5 h4 h3

/-- C13 on the empty range `[3, 3)` of the driver's array with zeros around it:
the recursion stays on `[3, 3)` and no fuel gives a result. -/
theorem binseaFlat_inverted_never_returns_witness :
    (∀ l h, ReachFlat 30 (memOf b (fun _ => 0)) (3, 3) (l, h) →
      h ≤ l ∧ ¬ wrap32 (h - l) = 1) ∧
    (∀ fuel, binseaFlat fuel 30 (memOf b (fun _ => 0)) 3 3 = none) ∧
    binseaCallFlat 30 (memOf b (fun _ => 0)) 3 3 = some (3, 3) :=
  ⟨(binseaFlat_inverted_never_returns 30 (memOf b (fun _ => 0)) 3 3 (by decide)
      (by decide) (by decide) (by decide) (by decide)).1,
    (binseaFlat_inverted_never_returns 30 (memOf b (fun _ => 0)) 3 3 (by decide)
      (by decide) (by decide) (by decide) (by decide)).2,
    by decide⟩

/-- C13 as stated fails, in three ways, each with `hi ≤ lo` and `hi+lo`
representable. With `lo = INT_MAX` and `hi = INT_MIN` the difference `hi-lo` wraps
to 1 and, on 2147483648 zeros, `binsea` returns `lo` for the key 0 at once. With
`lo = 2^30 + 1` and `hi = 2^30 - 2`, on 2147483647 zeros with -9 around them, the
search for -5 forms `lo + mid = 2^31` in its second call, which wraps, reaches
`[-1073741824, 1073741823)` and returns `NOT_FOUND`. With `lo = -2^30 + 1` and
`hi = -2^30 - 1` the sum `mid + hi` underflows in the second call, and the same
search returns `NOT_FOUND`. -/
theorem binseaFlat_inverted_returns :
    ((-2147483648 : Int) ≤ 2147483647 ∧
      INT_MIN ≤ (-2147483648 : Int) + 2147483647 ∧
      (-2147483648 : Int) + 2147483647 ≤ INT_MAX ∧
      binseaFlat 1 0 (memOf (zeros 2147483648) (fun _ => 9)) 2147483647 (-2147483648)
        = some 2147483647) ∧
    ((1073741822 : Int) ≤ 1073741825 ∧ INT_MIN ≤ (1073741822 : Int) + 1073741825 ∧
      (1073741822 : Int) + 1073741825 ≤ INT_MAX ∧
      binseaFlat 34 (-5) (memOf (zeros 2147483647) (fun _ => -9)) 1073741825 1073741822
        = some NOT_FOUND) ∧
    ((-1073741825 : Int) ≤ -1073741823 ∧
      INT_MIN ≤ (-1073741825 : Int) + -1073741823 ∧
      (-1073741825 : Int) + -1073741823 ≤ INT_MAX ∧
      binseaFlat 34 (-5) (memOf (zeros 2147483647) (fun _ => -9))
        (-1073741823) (-1073741825) = some NOT_FOUND) := by
  refine ⟨⟨by decide, by decide, by decide, ?_⟩, ⟨by decide, by decide, by decide, ?_⟩,
    ⟨by decide, by decide, by decide, ?_⟩⟩
  · rw [memOf_zeros]; decide
  · rw [memOf_zeros]; decide
  · rw [memOf_zeros]; decide

/-- C14 (amended). Reads in bounds: on any array, for a range
`0 ≤ lo < hi ≤ length a` with `2*hi - 2` representable as an `int`, every index `j`
that the run of `binsea` reads, `a[mid]` in a step and `a[lo]` in the base case,
satisfies `lo ≤ j < hi` and `a[j]` has a value, so the run never stops with a read
outside the array, whatever the fuel. -/
theorem binsea_reads_in_bounds (key : Int) (a : List Int) (lo hi : Int) (fuel : Nat)
    (h0 : 0 ≤ lo) (h1 : lo < hi) (h2 : hi ≤ a.length) (h3 : 2 * hi - 2 ≤ INT_MAX) :
    (∀ j ∈ binseaReads fuel key a lo hi, lo ≤ j ∧ j < hi ∧ ∃ x, readArr a j = some x) ∧
    binsea fuel key a lo hi ≠ .error .outOfBounds := by
  unfold INT_MAX at h3
  have hin := binseaReads_in_range key a fuel lo hi h0 h1 h2 (by omega)
  have hdef : ∀ j ∈ binseaReads fuel key a lo hi, ∃ x, readArr a j = some x := by
    intro j hj
    obtain ⟨j1, j2⟩ := hin j hj
    exact readArr_defined (by omega) (by omega)
  constructor
  · intro j hj
    obtain ⟨j1, j2⟩ := hin j hj
    exact ⟨j1, j2, hdef j hj⟩
  · intro hfault
    obtain ⟨j, hj, hnone⟩ := (binsea_fault_iff_read key a fuel lo hi).mp hfault
    obtain ⟨x, hx⟩ := hdef j hj
    rw [hx] at hnone
    cases hnone

/-- C14 on the driver's Test 1, where `hi` is the length of `b`: the run reads
`b[6]`, `b[3]`, `b[4]`, `b[5]` and `b[5]`, all inside `[0, 12)`. -/
theorem binsea_reads_in_bounds_witness :
    binseaReads 12 30 b 0 m = [6, 3, 4, 5, 5] ∧
    (∀ j ∈ binseaReads 12 30 b 0 m, 0 ≤ j ∧ j < m ∧ ∃ x, readArr b j = some x) ∧
    binsea 12 30 b 0 m ≠ .error .outOfBounds :=
  ⟨by decide,
    binsea_reads_in_bounds 30 b 0 m 12 (by decide) (by decide) (by decide) (by decide)⟩

/-- C14 as stated fails: on the array of 2147483647 zeros with the range
`[0, 2147483647)`, whose sum `hi+lo` is `INT_MAX`, the run for the key 0 reads
`a[1073741823]` and then `a[-536870913]`, outside the array. -/
theorem binsea_reads_outside_large_array :
    (2147483647 : Int) ≤ (zeros 2147483647).length ∧
    (2147483647 : Int) + 0 ≤ INT_MAX ∧
    binseaReads 2 0 (zeros 2147483647) 0 2147483647 = [1073741823, -536870913] ∧
    readArr (zeros 2147483647) (-536870913) = none ∧
    binsea 2 0 (zeros 2147483647) 0 2147483647 = .error .outOfBounds := by
  have hne : ¬ wrap32 (2147483647 - 0) = 1 := by decide
  have hmid : midpoint 0 2147483647 = 1073741823 := by decide
  have hx : readArr (zeros 2147483647) 1073741823 = some 0 :=
    readArr_zeros (by decide) (by decide)
  have hc : binseaCall 0 (zeros 2147483647) 0 2147483647
      = some (1073741823, 2147483647) := by
    have := binseaCall_of_read 0 (zeros 2147483647) 0 2147483647 0 hne
      (by rw [hmid]; exact hx)
    rw [hmid] at this
    exact this
  have hne2 : ¬ wrap32 (2147483647 - 1073741823) = 1 := by decide
  have hmid2 : midpoint 1073741823 2147483647 = -536870913 := by decide
  have hx2 : readArr (zeros 2147483647) (midpoint 1073741823 2147483647) = none := by
    rw [hmid2]; rfl
  refine ⟨?_, by decide, ?_, rfl, ?_⟩
  · rw [zeros_length]; decide
  · rw [binseaReads_of_call 1 0 _ 0 2147483647 _ hc,
      binseaReads_fault_mid 0 0 _ 1073741823 2147483647 hne2 hx2, hmid, hmid2]
  · rw [binsea_of_call 1 0 _ 0 2147483647 _ hc]
    exact binsea_fault_mid 0 0 _ 1073741823 2147483647 hne2 hx2

/-- C15. Sortedness is necessary for completeness: there are an array that is
not sorted, a range `0 ≤ lo < hi ≤ length a` and a key occurring in the range for
which `binsea` returns `NOT_FOUND` with any fuel of at least `hi - lo`; the array
`[2, 1]` with the key 2 and the range `[0, 2)` is one. -/
theorem binsea_needs_sorted :
    (∃ (a : List Int) (key lo hi : Int),
      ¬ a.Pairwise (fun u v => u ≤ v) ∧ 0 ≤ lo ∧ lo < hi ∧ hi ≤ a.length ∧
      (∃ j, lo ≤ j ∧ j < hi ∧ readArr a j = some key) ∧
      ∀ fuel, (hi - lo).toNat ≤ fuel → binsea fuel key a lo hi = .ok NOT_FOUND) ∧
    binsea 2 2 [2, 1] 0 2 = .ok NOT_FOUND := by
  refine ⟨⟨[2, 1], 2, 0, 2, by decide, by decide, by decide, by decide,
    ⟨0, by decide, by decide, by decide⟩, ?_⟩, by decide⟩
  intro fuel hf
  obtain ⟨f, rfl⟩ : ∃ f, fuel = f + 2 := ⟨fuel - 2, by
    have : (2 : Nat) ≤ fuel := hf
    omega⟩
  have hc : binseaCall 2 [2, 1] 0 2 = some (1, 2) := by decide
  rw [binsea_of_call (f + 1) 2 [2, 1] 0 2 _ hc,
    binsea_base f 2 [2, 1] 1 2 1 (by decide) (by decide)]
  rfl

end BinsearchVar
